import Mathlib

/-!
Request builder of the CubeFS master SDK (`sdk/master/request.go`).

A shallow embedding of the `request` builder and of `mergeHeader`, followed by
the properties of the builder that the specification states.

Modelling conventions
* a Go `map[string]string` is an association list with unique keys
  (`AList`); `m[k] = v` is `AList.insert`, a lookup is `AList.lookup`.  Go maps
  are unordered, so two maps are the same map when all their lookups agree.
  The maps of a builder are never nil (the type has no nil map).
* a Go `interface{}` value is a `Value`: one constructor per dynamic type the
  type switch of `addParamAny` names, one for `[]byte`, and one standing for
  every other dynamic type.
* machine integers are `Int`/`Nat` payloads; conversions to 64 bits wrap
  explicitly.  `int` and `uint` are taken as 64 bits wide.
* a Go `error` is a `ReqError`, identified by the format string that built it
  and its argument.
* indexing a slice is checked: an access out of range is the fault
  `Fault.indexOutOfRange` (a Go run-time panic).
-/

namespace Master

/-- One byte of a Go byte slice. -/
abbrev Byte := Fin 256

/-- Go `map[string]string`. -/
abbrev StrMap := AList (fun _ : String => String)

/-- A Go `interface{}` value, by dynamic type.  Integer payloads are the
numeric value; float payloads are the IEEE-754 bit pattern; `other` stands for
a value of any dynamic type not listed (nil, struct, map, slice, pointer …). -/
inductive Value where
  | str (s : String)
  | bool (b : Bool)
  | int8 (v : Int)
  | int16 (v : Int)
  | int32 (v : Int)
  | int64 (v : Int)
  | int (v : Int)
  | uint8 (v : Nat)
  | uint16 (v : Nat)
  | uint32 (v : Nat)
  | uint64 (v : Nat)
  | uint (v : Nat)
  | float32 (bits : Nat)
  | float64 (bits : Nat)
  | bytes (b : List Byte)
  | other (tag : Nat)
  deriving DecidableEq, Repr

/-- A value is well formed when its payload fits the width of its type. -/
def Value.wf : Value → Bool
  | .int8 v => decide (-(2 : Int) ^ 7 ≤ v ∧ v < 2 ^ 7)
  | .int16 v => decide (-(2 : Int) ^ 15 ≤ v ∧ v < 2 ^ 15)
  | .int32 v => decide (-(2 : Int) ^ 31 ≤ v ∧ v < 2 ^ 31)
  | .int64 v => decide (-(2 : Int) ^ 63 ≤ v ∧ v < 2 ^ 63)
  | .int v => decide (-(2 : Int) ^ 63 ≤ v ∧ v < 2 ^ 63)
  | .uint8 v => decide (v < 2 ^ 8)
  | .uint16 v => decide (v < 2 ^ 16)
  | .uint32 v => decide (v < 2 ^ 32)
  | .uint64 v => decide (v < 2 ^ 64)
  | .uint v => decide (v < 2 ^ 64)
  | .float32 bits => decide (bits < 2 ^ 32)
  | .float64 bits => decide (bits < 2 ^ 64)
  | _ => true

/-- The error values the builder records: `fmt.Errorf("unknown param type %v", value)`
and `fmt.Errorf("body json marshal %s", err.Error())`. -/
inductive ReqError where
  | unknownParamType (value : Value)
  | bodyJsonMarshal (msg : String)
  deriving DecidableEq, Repr

/-- Run-time faults of the embedding: a slice index out of range (a Go panic),
or a loop that was given too little fuel. -/
inductive Fault where
  | indexOutOfRange
  | outOfFuel
  deriving DecidableEq, Repr

/-! ## The `strconv` formatters used by `addParamAny` -/

/-- Conversion `int64(v)`: wrap into the signed 64-bit range. -/
def convInt64 (v : Int) : Int := (v + 2 ^ 63) % 2 ^ 64 - 2 ^ 63

/-- Conversion `uint64(v)`: wrap into the unsigned 64-bit range. -/
def convUint64 (v : Nat) : Nat := v % 2 ^ 64

/-- The decimal digit character of `d < 10`. -/
def digitChar (d : Nat) : Char := Char.ofNat (48 + d)

/-- Digit loop of `strconv`: writes the decimal digits of `u` in front of `acc`,
least significant digit first. -/
def formatBits : Nat → Nat → List Char → List Char
  | 0, _, acc => acc
  | fuel + 1, u, acc =>
    if u < 10 then digitChar u :: acc
    else formatBits fuel (u / 10) (digitChar (u % 10) :: acc)

/-- Go `strconv.FormatUint(u, 10)`. -/
def FormatUint (u : Nat) : String := String.mk (formatBits (u + 1) u [])

/-- Go `strconv.FormatInt(i, 10)`. -/
def FormatInt (i : Int) : String :=
  if i < 0 then String.mk ('-' :: formatBits (i.natAbs + 1) i.natAbs [])
  else FormatUint i.toNat

/-- Go `strconv.FormatBool`. -/
def FormatBool (b : Bool) : String := if b then "true" else "false"

/-- A decoded IEEE-754 binary float: NaN, a signed infinity, or the finite
value `± mant * 2 ^ exp`. -/
inductive FloatVal where
  | nan
  | inf (neg : Bool)
  | fin (neg : Bool) (mant : Nat) (exp : Int)
  deriving DecidableEq, Repr

/-- Decode a bit pattern with `ebits` exponent bits and `mbits` mantissa bits. -/
def decodeFloat (ebits mbits bits : Nat) : FloatVal :=
  let neg := decide (bits / 2 ^ (ebits + mbits) % 2 = 1)
  let e := bits / 2 ^ mbits % 2 ^ ebits
  let m := bits % 2 ^ mbits
  let bias : Int := 2 ^ (ebits - 1) - 1
  if e = 2 ^ ebits - 1 then (if m = 0 then .inf neg else .nan)
  else if e = 0 then .fin neg m (1 - bias - mbits)
  else .fin neg (2 ^ mbits + m) (e - bias - mbits)

/-- The quotient `num / den` rounded to the nearest integer, ties to even. -/
def roundHalfEven (num den : Nat) : Nat :=
  let q := num / den
  let r := num % den
  if den < 2 * r ∨ (2 * r = den ∧ q % 2 = 1) then q + 1 else q

/-- The value `mant * 2 ^ exp * 10 ^ 6` rounded to an integer. -/
def scaled6 (mant : Nat) (exp : Int) : Nat :=
  if 0 ≤ exp then mant * 2 ^ exp.toNat * 10 ^ 6
  else roundHalfEven (mant * 10 ^ 6) (2 ^ (-exp).toNat)

/-- Exactly six decimal digits of `n % 10 ^ 6`, zero padded. -/
def pad6 (n : Nat) : List Char :=
  [digitChar (n / 100000 % 10), digitChar (n / 10000 % 10), digitChar (n / 1000 % 10),
   digitChar (n / 100 % 10), digitChar (n / 10 % 10), digitChar (n % 10)]

/-- Go `strconv.FormatFloat(f, 'f', 6, 64)` on a decoded float. -/
def FormatFloat (x : FloatVal) : String :=
  match x with
  | .nan => "NaN"
  | .inf false => "+Inf"
  | .inf true => "-Inf"
  | .fin neg mant exp =>
    let n := scaled6 mant exp
    String.mk ((if neg then ['-'] else []) ++ (FormatUint (n / 10 ^ 6)).data ++ '.' :: pad6 n)

/-! ## The builder -/

/-- Go `type request struct`. -/
structure request where
  method : String
  path : String
  params : StrMap
  header : StrMap
  body : List Byte
  err : Option ReqError
  deriving DecidableEq

/-- Go `type anyParam struct`. -/
structure anyParam where
  key : String
  val : Value
  deriving DecidableEq, Repr

/-- Go `var ReqHeaderUA`; `proto.Version` and `proto.CommitID` are build-time
strings of another package and are taken as parameters. -/
def ReqHeaderUA (Version CommitID : String) : String :=
  "cubefs-sdk/" ++ Version ++ " (commit " ++ CommitID ++ ")"

/-- The type switch of `addParamAny`: the string stored for a value of a
listed type, `none` for the `default` arm. -/
def paramString : Value → Option String
  | .str v => some v
  | .bool v => some (FormatBool v)
  | .int8 v => some (FormatInt (convInt64 v))
  | .int16 v => some (FormatInt (convInt64 v))
  | .int32 v => some (FormatInt (convInt64 v))
  | .int64 v => some (FormatInt (convInt64 v))
  | .int v => some (FormatInt (convInt64 v))
  | .uint8 v => some (FormatUint (convUint64 v))
  | .uint16 v => some (FormatUint (convUint64 v))
  | .uint32 v => some (FormatUint (convUint64 v))
  | .uint64 v => some (FormatUint (convUint64 v))
  | .uint v => some (FormatUint (convUint64 v))
  | .float32 bits => some (FormatFloat (decodeFloat 8 23 bits))
  | .float64 bits => some (FormatFloat (decodeFloat 11 52 bits))
  | _ => none

/-- Go `func (r *request) addParamAny(key string, value interface{}) *request`. -/
def request.addParamAny (r : request) (key : String) (value : Value) : request :=
  match paramString value with
  | none => { r with err := some (.unknownParamType value) }
  | some val => { r with params := r.params.insert key val }

/-- Go `func (r *request) addParam(key, value string) *request`. -/
def request.addParam (r : request) (key value : String) : request :=
  { r with params := r.params.insert key value }

/-- Go `func (r *request) addHeader(key, value string) *request`. -/
def request.addHeader (r : request) (key value : String) : request :=
  { r with header := r.header.insert key value }

/-- Go `func (r *request) setBody(body []byte) *request`. -/
def request.setBody (r : request) (body : List Byte) : request :=
  { r with body := body }

/-- Go `func (r *request) Param(params ...anyParam) *request`. -/
def request.Param (r : request) : List anyParam → request
  | [] => r
  | param :: rest => (r.addParamAny param.key param.val).Param rest

/-- The trimming `if len(added)%2 == 1 { added = added[:len(added)-1] }`. -/
def trimAdded (added : List String) : List String :=
  if added.length % 2 = 1 then added.take (added.length - 1) else added

/-- The loop `for k, v := range headers { m[k] = v }`, in entry order. -/
def copyInto (headers : StrMap) (m : StrMap) : StrMap :=
  headers.entries.foldl (fun acc e => acc.insert e.1 e.2) m

/-- The loop `for idx := 0; idx < len(added); idx += 2 { m[added[idx]] = added[idx+1] }`
started at `idx`, with checked indexing. -/
def pairLoop (added : List String) : Nat → Nat → StrMap → Except Fault StrMap
  | 0, idx, m => if idx < added.length then .error .outOfFuel else .ok m
  | fuel + 1, idx, m =>
    if idx < added.length then
      match added[idx]?, added[idx + 1]? with
      | some k, some v => pairLoop added fuel (idx + 2) (m.insert k v)
      | _, _ => .error .indexOutOfRange
    else .ok m

/-- Go `func (r *request) Header(headers map[string]string, added ...string) *request`. -/
def request.Header (r : request) (headers : StrMap) (added : List String) :
    Except Fault request :=
  let added := trimAdded added
  match pairLoop added added.length 0 (copyInto headers r.header) with
  | .error f => .error f
  | .ok m => .ok { r with header := m }

/-- Go `func (r *request) Body(body interface{}) *request`; `marshal` is
`json.Marshal`, an external encoder returning bytes or an error message. -/
def request.Body (marshal : Value → Except String (List Byte)) (r : request)
    (body : Value) : request :=
  match body with
  | .bytes reqBody => { r with body := reqBody }
  | _ =>
    match marshal body with
    | .error e => { r with err := some (.bodyJsonMarshal e) }
    | .ok reqBody => { r with body := reqBody }

/-- Go `func newRequest(method string, path string) *request`. -/
def newRequest (Version CommitID method path : String) : request :=
  let req : request :=
    { method := method, path := path, params := ∅, header := ∅, body := [], err := none }
  { req with header := req.header.insert "User-Agent" (ReqHeaderUA Version CommitID) }

/-- Go `func mergeHeader(headers map[string]string, added ...string) map[string]string`. -/
def mergeHeader (headers : StrMap) (added : List String) : Except Fault StrMap :=
  let added := trimAdded added
  let copied : StrMap := ∅
  pairLoop added added.length 0 (copyInto headers copied)

/-- A call of one of the builder's mutators. -/
inductive Op where
  | addParamAny (key : String) (value : Value)
  | addParam (key value : String)
  | addHeader (key value : String)
  | setBody (body : List Byte)
  | Param (params : List anyParam)
  | Header (headers : StrMap) (added : List String)
  | Body (body : Value)

/-- Perform one mutator call on a builder. -/
def Op.apply (marshal : Value → Except String (List Byte)) (r : request) :
    Op → Except Fault request
  | .addParamAny key value => .ok (r.addParamAny key value)
  | .addParam key value => .ok (r.addParam key value)
  | .addHeader key value => .ok (r.addHeader key value)
  | .setBody body => .ok (r.setBody body)
  | .Param params => .ok (r.Param params)
  | .Header headers added => r.Header headers added
  | .Body body => .ok (r.Body marshal body)

/-- Perform a chain of mutator calls, left to right. -/
def runOps (marshal : Value → Except String (List Byte)) (r : request) :
    List Op → Except Fault request
  | [] => .ok r
  | op :: rest =>
    match op.apply marshal r with
    | .error f => .error f
    | .ok r1 => runOps marshal r1 rest

/-! ## Vocabulary of the specification -/

/-- The scalar kinds the specification lists for `addParamAny`: string, bool,
a signed or unsigned integer width, a float width. -/
def Value.isScalarKind : Value → Bool
  | .str _ => true
  | .bool _ => true
  | .int8 _ => true
  | .int16 _ => true
  | .int32 _ => true
  | .int64 _ => true
  | .int _ => true
  | .uint8 _ => true
  | .uint16 _ => true
  | .uint32 _ => true
  | .uint64 _ => true
  | .uint _ => true
  | .float32 _ => true
  | .float64 _ => true
  | .bytes _ => false
  | .other _ => false

/-- The number held by a value of a signed integer type. -/
def Value.signedValue : Value → Option Int
  | .int8 v => some v
  | .int16 v => some v
  | .int32 v => some v
  | .int64 v => some v
  | .int v => some v
  | _ => none

/-- The number held by a value of an unsigned integer type. -/
def Value.unsignedValue : Value → Option Nat
  | .uint8 v => some v
  | .uint16 v => some v
  | .uint32 v => some v
  | .uint64 v => some v
  | .uint v => some v
  | _ => none

/-- Read a non-empty string of decimal digits as a natural number. -/
def parseDigits (cs : List Char) : Option Nat :=
  if cs = [] then none
  else cs.foldl
    (fun acc c =>
      match acc with
      | some a => if c.isDigit then some (a * 10 + (c.toNat - 48)) else none
      | none => none)
    (some 0)

/-- Read a decimal integer: an optional leading minus sign, then digits. -/
def parseDecimal (cs : List Char) : Option Int :=
  if cs.head? = some '-' then (parseDigits cs.tail).map (fun n => -(n : Int))
  else (parseDigits cs).map (fun n => (n : Int))

/-- The characters of a numeral after its minus sign, if it has one. -/
def unsignedPart (cs : List Char) : List Char :=
  if cs.head? = some '-' then cs.tail else cs

/-- The shape of the canonical base-10 numeral of `i`: a leading minus sign
exactly when `i` is negative, then at least one character, all of them decimal
digits (so no grouping characters), with no leading zero except in "0". -/
def CanonicalDecimal (cs : List Char) (i : Int) : Prop :=
  (cs.head? = some '-' ↔ i < 0) ∧
  unsignedPart cs ≠ [] ∧
  (∀ c ∈ unsignedPart cs, c.isDigit = true) ∧
  ((unsignedPart cs).head? = some '0' → unsignedPart cs = ['0'])

/-- The last pair of a `Param` call whose value the type switch rejects. -/
def lastUnsupported (params : List anyParam) : Option anyParam :=
  params.reverse.find? (fun p => (paramString p.val).isNone)

/-- An encoder that fails on values of unlisted dynamic type and encodes
every other value as the empty byte sequence. -/
def sampleMarshal : Value → Except String (List Byte)
  | .other _ => .error "unsupported type"
  | _ => .ok []

/-- The key/value pairs of a flat list stored into a map in list order; a
trailing unpaired element is not stored. -/
def insertPairs : List String → StrMap → StrMap
  | k :: v :: rest, m => insertPairs rest (m.insert k v)
  | _, m => m

/-- The mutator calls that only store parameters of supported types:
`addParam`, and `addParamAny`/`Param` with values of the listed scalar kinds. -/
def Op.storesParams : Op → Bool
  | .addParam _ _ => true
  | .addParamAny _ value => value.isScalarKind
  | .Param params => params.all (fun p => p.val.isScalarKind)
  | _ => false

/-- The parameter keys a mutator call names. -/
def Op.paramKeys : Op → List String
  | .addParam key _ => [key]
  | .addParamAny key _ => [key]
  | .Param params => params.map (fun p => p.key)
  | _ => []

/-- The parameter keys a chain of mutator calls names. -/
def chainParamKeys : List Op → List String
  | [] => []
  | op :: rest => op.paramKeys ++ chainParamKeys rest

/-- A builder that already holds a deferred error: `newRequest("POST", "/x")`
followed by `addParamAny("a", v)` with `v` of an unlisted dynamic type. -/
def failedBuilder : request :=
  (newRequest "3.3.0" "abc" "POST" "/x").addParamAny "a" (.other 1)

/-- Go `len(m)` of a map: its number of entries. -/
def mapLen (m : StrMap) : Nat := m.entries.length

/-- The float held by a value of a float type, decoded.  Widening a
`float32` to `float64` is exact, so `float64(v)` has the decoded value of `v`. -/
def Value.floatValue : Value → Option FloatVal
  | .float32 bits => some (decodeFloat 8 23 bits)
  | .float64 bits => some (decodeFloat 11 52 bits)
  | _ => none

/-- The integer `n` is `mant * 2 ^ exp` scaled by `10 ^ 6` and rounded to the
nearest integer, a tie going to the even neighbour: `n / 10 ^ 6` is the value
rounded to six decimal places. -/
def NearestScaled6 (mant : Nat) (exp : Int) (n : Nat) : Prop :=
  |(n : ℚ) - (mant : ℚ) * (2 : ℚ) ^ exp * 10 ^ 6| ≤ 1 / 2 ∧
  (|(n : ℚ) - (mant : ℚ) * (2 : ℚ) ^ exp * 10 ^ 6| = 1 / 2 → n % 2 = 0)

/-! ## Decimal numerals -/

theorem digitChar_isDigit (d : Nat) (h : d < 10) : (digitChar d).isDigit = true := by
  interval_cases d <;> decide

theorem digitChar_toNat (d : Nat) (h : d < 10) : (digitChar d).toNat - 48 = d := by
  interval_cases d <;> decide

theorem digitChar_eq_zero (d : Nat) (h : d < 10) (h0 : digitChar d = '0') : d = 0 := by
  interval_cases d <;> first | rfl | (exact absurd h0 (by decide))

theorem isDigit_ne_minus (c : Char) (h : c.isDigit = true) : c ≠ '-' := by
  intro hc
  subst hc
  exact absurd h (by decide)

theorem formatBits_digits (fuel u : Nat) (acc : List Char)
    (hacc : ∀ c ∈ acc, c.isDigit = true) :
    ∀ c ∈ formatBits fuel u acc, c.isDigit = true := by
  induction fuel generalizing u acc with
  | zero => simpa [formatBits] using hacc
  | succ f ih =>
    unfold formatBits
    split
    · intro c hc
      rcases List.mem_cons.mp hc with rfl | hc
      · exact digitChar_isDigit u (by assumption)
      · exact hacc c hc
    · apply ih
      intro c hc
      rcases List.mem_cons.mp hc with rfl | hc
      · exact digitChar_isDigit _ (Nat.mod_lt _ (by decide))
      · exact hacc c hc

theorem formatBits_ne_nil (fuel u : Nat) (acc : List Char) :
    formatBits (fuel + 1) u acc ≠ [] := by
  induction fuel generalizing u acc with
  | zero =>
    unfold formatBits
    split
    · simp
    · simp [formatBits]
  | succ f ih =>
    unfold formatBits
    split
    · simp
    · exact ih _ _

theorem formatBits_head (fuel u : Nat) (acc : List Char) (hu : u < fuel) (hpos : 0 < u) :
    (formatBits fuel u acc).head? ≠ some '0' := by
  induction fuel generalizing u acc with
  | zero => omega
  | succ f ih =>
    unfold formatBits
    split
    · intro h
      have h1 : digitChar u = '0' := by simpa using h
      have := digitChar_eq_zero u (by assumption) h1
      omega
    · apply ih
      · omega
      · omega

/-- The number a string of digits denotes, ignoring validity. -/
theorem foldl_digits_shift (cs : List Char) (a : Nat) :
    cs.foldl (fun x c => x * 10 + (c.toNat - 48)) a
      = a * 10 ^ cs.length + cs.foldl (fun x c => x * 10 + (c.toNat - 48)) 0 := by
  induction cs generalizing a with
  | nil => simp
  | cons c t ih =>
    simp only [List.foldl_cons, List.length_cons]
    rw [ih (a * 10 + (c.toNat - 48)), ih (0 * 10 + (c.toNat - 48))]
    ring

theorem formatBits_value (fuel u : Nat) (acc : List Char) (hu : u < fuel) :
    (formatBits fuel u acc).foldl (fun x c => x * 10 + (c.toNat - 48)) 0
      = u * 10 ^ acc.length + acc.foldl (fun x c => x * 10 + (c.toNat - 48)) 0 := by
  induction fuel generalizing u acc with
  | zero => omega
  | succ f ih =>
    unfold formatBits
    split
    · rename_i h10
      simp only [List.foldl_cons]
      rw [foldl_digits_shift, digitChar_toNat u h10]
      simp
    · rw [ih (u / 10) _ (by omega)]
      simp only [List.foldl_cons, List.length_cons]
      rw [foldl_digits_shift acc, digitChar_toNat _ (Nat.mod_lt _ (by decide))]
      have hdiv := Nat.div_add_mod u 10
      have : u * 10 ^ acc.length = (10 * (u / 10) + u % 10) * 10 ^ acc.length := by rw [hdiv]
      rw [this]
      ring

theorem parseDigits_of_digits (cs : List Char) (hne : cs ≠ [])
    (hd : ∀ c ∈ cs, c.isDigit = true) :
    parseDigits cs = some (cs.foldl (fun x c => x * 10 + (c.toNat - 48)) 0) := by
  have key : ∀ (l : List Char) (a : Nat), (∀ c ∈ l, c.isDigit = true) →
      l.foldl
        (fun acc c =>
          match acc with
          | some a => if c.isDigit then some (a * 10 + (c.toNat - 48)) else none
          | none => none)
        (some a) = some (l.foldl (fun x c => x * 10 + (c.toNat - 48)) a) := by
    intro l
    induction l with
    | nil => intro a _; rfl
    | cons c t ih =>
      intro a h
      simp only [List.foldl_cons]
      rw [if_pos (h c (List.mem_cons_self _ _))]
      exact ih _ (fun x hx => h x (List.mem_cons_of_mem _ hx))
  unfold parseDigits
  rw [if_neg hne]
  exact key cs 0 hd

theorem parseDigits_formatBits (u : Nat) :
    parseDigits (formatBits (u + 1) u []) = some u := by
  rw [parseDigits_of_digits _ (formatBits_ne_nil u u [])
    (formatBits_digits _ _ _ (by simp))]
  rw [formatBits_value _ _ _ (Nat.lt_succ_self u)]
  simp

theorem head_ne_minus_of_digits (cs : List Char) (hd : ∀ c ∈ cs, c.isDigit = true) :
    cs.head? ≠ some '-' := by
  cases cs with
  | nil => simp
  | cons c t =>
    intro h
    have hc : c = '-' := by simpa using h
    exact isDigit_ne_minus c (hd c (List.mem_cons_self _ _)) hc

theorem FormatUint_canonical (n : Nat) :
    CanonicalDecimal (FormatUint n).data (n : Int) ∧
      (∀ c ∈ (FormatUint n).data, c.isDigit = true) ∧
      parseDecimal (FormatUint n).data = some (n : Int) := by
  have hdig : ∀ c ∈ formatBits (n + 1) n [], c.isDigit = true :=
    formatBits_digits _ _ _ (by simp)
  have hhead := head_ne_minus_of_digits _ hdig
  have hdata : (FormatUint n).data = formatBits (n + 1) n [] := rfl
  rw [hdata]
  have hun : unsignedPart (formatBits (n + 1) n []) = formatBits (n + 1) n [] := by
    unfold unsignedPart
    rw [if_neg hhead]
  refine ⟨⟨?_, ?_, ?_, ?_⟩, hdig, ?_⟩
  · constructor
    · intro h
      exact absurd h hhead
    · intro h
      omega
  · rw [hun]
    exact formatBits_ne_nil _ _ _
  · rw [hun]
    exact hdig
  · rw [hun]
    intro h0
    rcases Nat.eq_zero_or_pos n with hn | hn
    · subst hn
      rfl
    · exact absurd h0 (formatBits_head _ _ _ (Nat.lt_succ_self n) hn)
  · unfold parseDecimal
    rw [if_neg hhead, parseDigits_formatBits]
    rfl

theorem FormatInt_canonical (i : Int) :
    CanonicalDecimal (FormatInt i).data i ∧ parseDecimal (FormatInt i).data = some i := by
  by_cases hneg : i < 0
  · have hdata : (FormatInt i).data = '-' :: formatBits (i.natAbs + 1) i.natAbs [] := by
      unfold FormatInt
      rw [if_pos hneg]
    rw [hdata]
    have hdig : ∀ c ∈ formatBits (i.natAbs + 1) i.natAbs [], c.isDigit = true :=
      formatBits_digits _ _ _ (by simp)
    have hun : unsignedPart ('-' :: formatBits (i.natAbs + 1) i.natAbs [])
        = formatBits (i.natAbs + 1) i.natAbs [] := by
      simp [unsignedPart]
    refine ⟨⟨?_, ?_, ?_, ?_⟩, ?_⟩
    · simp [hneg]
    · rw [hun]
      exact formatBits_ne_nil _ _ _
    · rw [hun]
      exact hdig
    · rw [hun]
      intro h0
      exact absurd h0 (formatBits_head _ _ _ (Nat.lt_succ_self _) (by omega))
    · unfold parseDecimal
      simp only [List.head?_cons, if_true, List.tail_cons]
      rw [parseDigits_formatBits]
      show some (-((i.natAbs : Nat) : Int)) = some i
      congr 1
      omega
  · have hF : FormatInt i = FormatUint i.toNat := by
      unfold FormatInt
      rw [if_neg hneg]
    have hi : ((i.toNat : Nat) : Int) = i := Int.toNat_of_nonneg (by omega)
    have := FormatUint_canonical i.toNat
    rw [hi] at this
    rw [hF]
    exact ⟨this.1, this.2.2⟩

theorem convInt64_of_range (v : Int) (h : -(2 : Int) ^ 63 ≤ v ∧ v < 2 ^ 63) :
    convInt64 v = v := by
  unfold convInt64
  norm_num at h ⊢
  omega

theorem convUint64_of_range (v : Nat) (h : v < 2 ^ 64) : convUint64 v = v := by
  unfold convUint64
  exact Nat.mod_eq_of_lt h

/-! ## Basic facts about the mutators -/

theorem paramString_eq_none_iff (value : Value) :
    paramString value = none ↔ value.isScalarKind = false := by
  cases value <;> simp [paramString, Value.isScalarKind]

theorem addParamAny_of_none (r : request) (key : String) (value : Value)
    (h : paramString value = none) :
    r.addParamAny key value = { r with err := some (.unknownParamType value) } := by
  unfold request.addParamAny
  rw [h]

theorem addParamAny_of_some (r : request) (key : String) (value : Value) (val : String)
    (h : paramString value = some val) :
    r.addParamAny key value = { r with params := r.params.insert key val } := by
  unfold request.addParamAny
  rw [h]

theorem Param_append (r : request) (xs ys : List anyParam) :
    r.Param (xs ++ ys) = (r.Param xs).Param ys := by
  induction xs generalizing r with
  | nil => rfl
  | cons p t ih =>
    simp only [List.cons_append, request.Param]
    exact ih _

theorem Param_err (r : request) (params : List anyParam) :
    (r.Param params).err =
      match lastUnsupported params with
      | some p => some (.unknownParamType p.val)
      | none => r.err := by
  induction params using List.reverseRecOn generalizing r with
  | nil => rfl
  | append_singleton t p ih =>
    rw [Param_append]
    have hstep : ((r.Param t).Param [p]) = (r.Param t).addParamAny p.key p.val := rfl
    rw [hstep]
    unfold lastUnsupported
    rw [List.reverse_append, List.reverse_singleton, List.singleton_append, List.find?_cons]
    cases hp : paramString p.val with
    | none =>
      rw [addParamAny_of_none _ _ _ hp]
      simp
    | some val =>
      rw [addParamAny_of_some _ _ _ _ hp]
      simp only [Option.isNone_some]
      have := ih r
      unfold lastUnsupported at this
      exact this

/-! ## The header loops -/

theorem trimAdded_length_even (added : List String) : (trimAdded added).length % 2 = 0 := by
  unfold trimAdded
  split
  · rw [List.length_take]
    omega
  · omega

theorem trimAdded_of_odd (added : List String) (h : added.length % 2 = 1) :
    trimAdded added = added.dropLast := by
  unfold trimAdded
  rw [if_pos h, List.dropLast_eq_take]

theorem trimAdded_of_even (added : List String) (h : added.length % 2 = 0) :
    trimAdded added = added := by
  unfold trimAdded
  rw [if_neg (by omega)]

theorem trimAdded_getElem? (added : List String) (i : Nat)
    (h : i < (trimAdded added).length) : (trimAdded added)[i]? = added[i]? := by
  unfold trimAdded at h ⊢
  split
  · rename_i hodd
    rw [if_pos hodd] at h
    rw [List.length_take] at h
    exact List.getElem?_take_of_lt (by omega)
  · rfl

theorem trimAdded_paired (added : List String) (i : Nat) (hi : i % 2 = 0) :
    i + 1 < (trimAdded added).length ↔ i + 1 < added.length := by
  unfold trimAdded
  split
  · rw [List.length_take]
    omega
  · exact Iff.rfl

theorem pairLoop_eq (added : List String) (fuel idx : Nat) (m : StrMap)
    (heven : (added.length - idx) % 2 = 0) (hle : idx ≤ added.length)
    (hfuel : added.length - idx ≤ 2 * fuel) :
    pairLoop added fuel idx m = .ok (insertPairs (added.drop idx) m) := by
  induction fuel generalizing idx m with
  | zero =>
    have hlen : ¬ idx < added.length := by omega
    have hdrop : added.drop idx = [] := List.drop_eq_nil_of_le (by omega)
    simp [pairLoop, hlen, hdrop, insertPairs]
  | succ f ih =>
    unfold pairLoop
    by_cases hlt : idx < added.length
    · have h1 : idx + 1 < added.length := by omega
      rw [if_pos hlt, List.getElem?_eq_getElem hlt, List.getElem?_eq_getElem h1]
      have hd : added.drop idx = added[idx] :: added[idx + 1] :: added.drop (idx + 2) := by
        rw [List.drop_eq_getElem_cons hlt, List.drop_eq_getElem_cons h1]
      rw [hd]
      simp only [insertPairs]
      exact ih (idx + 2) _ (by omega) (by omega) (by omega)
    · have hdrop : added.drop idx = [] := List.drop_eq_nil_of_le (by omega)
      rw [if_neg hlt, hdrop]
      rfl

theorem pairLoop_trimmed (added : List String) (m : StrMap) :
    pairLoop (trimAdded added) (trimAdded added).length 0 m
      = .ok (insertPairs (trimAdded added) m) := by
  have h := pairLoop_eq (trimAdded added) (trimAdded added).length 0 m
    (by simpa using trimAdded_length_even added) (Nat.zero_le _) (by omega)
  simpa using h

theorem Header_eq (r : request) (headers : StrMap) (added : List String) :
    r.Header headers added
      = .ok { r with header := insertPairs (trimAdded added) (copyInto headers r.header) } := by
  unfold request.Header
  simp only [pairLoop_trimmed]

theorem mergeHeader_eq (headers : StrMap) (added : List String) :
    mergeHeader headers added = .ok (insertPairs (trimAdded added) (copyInto headers ∅)) := by
  unfold mergeHeader
  simp only [pairLoop_trimmed]

theorem lookup_foldl_insert (k : String) (l : List (Sigma fun _ : String => String))
    (m : StrMap) (hnd : l.NodupKeys) :
    (l.foldl (fun acc e => acc.insert e.1 e.2) m).lookup k
      = match l.dlookup k with
        | some v => some v
        | none => m.lookup k := by
  induction l generalizing m with
  | nil => rfl
  | cons e t ih =>
    obtain ⟨a, b⟩ := e
    have hnd2 := List.nodupKeys_cons.mp hnd
    simp only [List.foldl_cons]
    rw [ih _ hnd2.2]
    by_cases hk : k = a
    · subst hk
      have hnone : List.dlookup k t = none := List.dlookup_eq_none.mpr hnd2.1
      rw [hnone, List.dlookup_cons_eq]
      exact AList.lookup_insert m
    · rw [List.dlookup_cons_ne t ⟨a, b⟩ hk]
      cases List.dlookup k t with
      | some v => rfl
      | none => exact AList.lookup_insert_ne hk

theorem lookup_copyInto (k : String) (headers m : StrMap) :
    (copyInto headers m).lookup k
      = match headers.lookup k with
        | some v => some v
        | none => m.lookup k :=
  lookup_foldl_insert k headers.entries m headers.nodupKeys

theorem lookup_insertPairs_absent (k : String) :
    ∀ (l : List String) (m : StrMap),
      (∀ i, i % 2 = 0 → i + 1 < l.length → l[i]? ≠ some k) →
      (insertPairs l m).lookup k = m.lookup k
  | [], m, _ => rfl
  | [_], m, _ => rfl
  | a :: b :: rest, m, h => by
    simp only [insertPairs]
    rw [lookup_insertPairs_absent k rest (m.insert a b)]
    · have ha : k ≠ a := by
        intro hka
        have := h 0 (by decide) (by simp)
        simp [hka] at this
      exact AList.lookup_insert_ne ha
    · intro i hi hlt
      have := h (i + 2) (by omega) (by simp at hlt ⊢; omega)
      simpa using this

theorem lookup_insertPairs_present (k : String) :
    ∀ (l : List String) (m : StrMap) (i : Nat), i % 2 = 0 → i + 1 < l.length →
      l[i]? = some k →
      (∀ j, i < j → j % 2 = 0 → j + 1 < l.length → l[j]? ≠ some k) →
      (insertPairs l m).lookup k = l[i + 1]?
  | [], _, i, _, hlt, _, _ => by simp at hlt
  | [_], _, i, _, hlt, _, _ => by simp at hlt
  | a :: b :: rest, m, i, hi, hlt, hk, hlast => by
    simp only [insertPairs]
    rcases Nat.eq_zero_or_pos i with h0 | hpos
    · subst h0
      have hka : a = k := by simpa using hk
      subst hka
      rw [lookup_insertPairs_absent a rest]
      · simp
      · intro j hj hjlt
        have := hlast (j + 2) (by omega) (by omega) (by simp at hjlt ⊢; omega)
        simpa using this
    · obtain ⟨i2, rfl⟩ : ∃ i2, i = i2 + 2 := ⟨i - 2, by omega⟩
      have := lookup_insertPairs_present k rest (m.insert a b) i2 (by omega)
        (by simp at hlt ⊢; omega) (by simpa using hk)
        (by
          intro j hj hj2 hjlt
          have := hlast (j + 2) (by omega) (by omega) (by simp at hjlt ⊢; omega)
          simpa using this)
      simpa using this

/-! ## Parameters -/

theorem Param_lookup_preserved (k : String) (post : List anyParam) (r : request)
    (h : ∀ q ∈ post, q.key = k → paramString q.val = none) :
    (r.Param post).params.lookup k = r.params.lookup k := by
  induction post generalizing r with
  | nil => rfl
  | cons q t ih =>
    simp only [request.Param]
    rw [ih _ (fun x hx => h x (List.mem_cons_of_mem _ hx))]
    cases hq : paramString q.val with
    | none => rw [addParamAny_of_none _ _ _ hq]
    | some val =>
      rw [addParamAny_of_some _ _ _ _ hq]
      have hne : k ≠ q.key := by
        intro hk
        have := h q (List.mem_cons_self _ _) hk.symm
        rw [hq] at this
        exact Option.noConfusion this
      exact AList.lookup_insert_ne hne

theorem Param_supported (params : List anyParam) (r : request)
    (h : ∀ p ∈ params, p.val.isScalarKind = true) :
    (r.Param params).err = r.err ∧
      ∀ k, k ∈ (r.Param params).params ↔ k ∈ r.params ∨ k ∈ params.map (fun p => p.key) := by
  induction params generalizing r with
  | nil => simp [request.Param]
  | cons q t ih =>
    simp only [request.Param]
    have hq : q.val.isScalarKind = true := h q (List.mem_cons_self _ _)
    obtain ⟨val, hval⟩ : ∃ val, paramString q.val = some val := by
      cases hp : paramString q.val with
      | none =>
        rw [(paramString_eq_none_iff q.val).mp hp] at hq
        exact Bool.noConfusion hq
      | some val => exact ⟨val, rfl⟩
    have ih2 := ih (r.addParamAny q.key q.val) (fun x hx => h x (List.mem_cons_of_mem _ hx))
    rw [addParamAny_of_some _ _ _ _ hval] at ih2 ⊢
    refine ⟨ih2.1, ?_⟩
    intro k
    rw [ih2.2 k]
    simp only [AList.mem_insert, List.map_cons, List.mem_cons]
    tauto

theorem runOps_storesParams (marshal : Value → Except String (List Byte)) (ops : List Op)
    (r : request) (herr : r.err = none) (h : ∀ op ∈ ops, op.storesParams = true) :
    ∃ r1, runOps marshal r ops = .ok r1 ∧ r1.err = none ∧
      ∀ k, k ∈ r1.params ↔ k ∈ r.params ∨ k ∈ chainParamKeys ops := by
  induction ops generalizing r with
  | nil => exact ⟨r, rfl, herr, by simp [chainParamKeys]⟩
  | cons op t ih =>
    have hop : op.storesParams = true := h op (List.mem_cons_self _ _)
    have ht : ∀ x ∈ t, x.storesParams = true := fun x hx => h x (List.mem_cons_of_mem _ hx)
    have step : ∃ r2, op.apply marshal r = .ok r2 ∧ r2.err = none ∧
        ∀ k, k ∈ r2.params ↔ k ∈ r.params ∨ k ∈ op.paramKeys := by
      cases op with
      | addParam key value =>
        refine ⟨r.addParam key value, rfl, herr, ?_⟩
        intro k
        simp only [request.addParam, AList.mem_insert, Op.paramKeys, List.mem_singleton]
        tauto
      | addParamAny key value =>
        cases hp : paramString value with
        | none =>
          have hk : value.isScalarKind = true := hop
          rw [(paramString_eq_none_iff value).mp hp] at hk
          exact Bool.noConfusion hk
        | some val =>
          refine ⟨r.addParamAny key value, rfl, ?_, ?_⟩
          · rw [addParamAny_of_some _ _ _ _ hp]
            exact herr
          · intro k
            rw [addParamAny_of_some _ _ _ _ hp]
            simp only [AList.mem_insert, Op.paramKeys, List.mem_singleton]
            tauto
      | Param params =>
        have hall : ∀ p ∈ params, p.val.isScalarKind = true := by
          have : params.all (fun p => p.val.isScalarKind) = true := hop
          simpa using this
        have hs := Param_supported params r hall
        exact ⟨r.Param params, rfl, hs.1.trans herr, hs.2⟩
      | addHeader key value => exact Bool.noConfusion hop
      | setBody body => exact Bool.noConfusion hop
      | Header headers added => exact Bool.noConfusion hop
      | Body body => exact Bool.noConfusion hop
    obtain ⟨r2, h2, herr2, hk2⟩ := step
    obtain ⟨r1, h1, herr1, hk1⟩ := ih r2 herr2 ht
    refine ⟨r1, ?_, herr1, ?_⟩
    · simp only [runOps, h2]
      exact h1
    · intro k
      rw [hk1 k, hk2 k]
      simp only [chainParamKeys, List.mem_append]
      tauto

/-! ## Deferred error and parameter encoding -/

/-- C1 (counterexample): on a builder that already holds the error of a first
unsupported parameter, a second `addParamAny` with an unsupported value, a
`Param` call containing one, and a `Body` call whose encoder fails each leave
a deferred error different from the one recorded first. -/
theorem first_error_overwritten :
    failedBuilder.err = some (.unknownParamType (.other 1)) ∧
    (failedBuilder.addParamAny "b" (.other 2)).err ≠ failedBuilder.err ∧
    (failedBuilder.Param [⟨"b", .other 2⟩]).err ≠ failedBuilder.err ∧
    (failedBuilder.Body sampleMarshal (.other 3)).err ≠ failedBuilder.err := by
  decide

/-- C1 (amended): on a builder whose deferred error is `e`, the mutators
`addParam`, `addHeader`, `setBody` and `Header` leave the deferred error `e`;
`addParamAny` with a value of unsupported type replaces it by the
unknown-param-type error of that value; `Param` leaves the unknown-param-type
error of its last pair of unsupported type, or `e` when it has none; `Body`
with a value that is not a byte sequence and whose encoder fails replaces it by
the body-marshal error of that failure. -/
theorem deferred_error_after_mutation (marshal : Value → Except String (List Byte))
    (r : request) (e : ReqError) (h : r.err = some e) :
    (∀ key value, (r.addParam key value).err = some e) ∧
    (∀ key value, (r.addHeader key value).err = some e) ∧
    (∀ body, (r.setBody body).err = some e) ∧
    (∀ headers added, ∃ r1, r.Header headers added = .ok r1 ∧ r1.err = some e) ∧
    (∀ key value, value.isScalarKind = false →
      (r.addParamAny key value).err = some (.unknownParamType value)) ∧
    (∀ params, (r.Param params).err =
      match lastUnsupported params with
      | some p => some (.unknownParamType p.val)
      | none => some e) ∧
    (∀ body msg, (∀ b, body ≠ .bytes b) → marshal body = .error msg →
      (r.Body marshal body).err = some (.bodyJsonMarshal msg)) := by
  refine ⟨fun _ _ => h, fun _ _ => h, fun _ => h, ?_, ?_, ?_, ?_⟩
  · intro headers added
    exact ⟨_, Header_eq r headers added, h⟩
  · intro key value hv
    rw [addParamAny_of_none _ _ _ ((paramString_eq_none_iff value).mpr hv)]
  · intro params
    rw [Param_err, h]
  · intro body msg hb hm
    cases body with
    | bytes b => exact absurd rfl (hb b)
    | _ => simp only [request.Body, hm]

/-- Witness of `deferred_error_after_mutation` on `failedBuilder`. -/
theorem deferred_error_after_mutation_witness :
    failedBuilder.err = some (.unknownParamType (.other 1)) ∧
    (Value.other 2).isScalarKind = false ∧
    (failedBuilder.addParamAny "b" (.other 2)).err = some (.unknownParamType (.other 2)) ∧
    (failedBuilder.Body sampleMarshal (.other 3)).err
      = some (.bodyJsonMarshal "unsupported type") :=
  ⟨rfl, rfl,
    (deferred_error_after_mutation sampleMarshal failedBuilder _ rfl).2.2.2.2.1
      "b" (.other 2) rfl,
    (deferred_error_after_mutation sampleMarshal failedBuilder _ rfl).2.2.2.2.2.2
      (.other 3) "unsupported type" (fun _ hb => Value.noConfusion hb) rfl⟩

/-- C2: `addParamAny` with a value whose type is none of string, bool, an
integer width or a float width leaves `params` exactly as it was and leaves the
deferred error non-empty. -/
theorem addParamAny_unsupported (r : request) (key : String) (value : Value)
    (h : value.isScalarKind = false) :
    (r.addParamAny key value).params = r.params ∧
    (∀ k, (r.addParamAny key value).params.lookup k = r.params.lookup k) ∧
    (r.addParamAny key value).err ≠ none := by
  rw [addParamAny_of_none _ _ _ ((paramString_eq_none_iff value).mpr h)]
  exact ⟨rfl, fun _ => rfl, fun hn => Option.noConfusion hn⟩

/-- Witness of `addParamAny_unsupported`: the scenario `new("POST", "/x")`,
`addParamAny("bad", someObjectValue)`. -/
theorem addParamAny_unsupported_witness :
    (Value.other 7).isScalarKind = false ∧
    ((newRequest "3.3.0" "abc" "POST" "/x").addParamAny "bad" (.other 7)).params
      = (newRequest "3.3.0" "abc" "POST" "/x").params ∧
    ((newRequest "3.3.0" "abc" "POST" "/x").addParamAny "bad" (.other 7)).err ≠ none :=
  ⟨rfl,
    (addParamAny_unsupported (newRequest "3.3.0" "abc" "POST" "/x") "bad" (.other 7) rfl).1,
    (addParamAny_unsupported (newRequest "3.3.0" "abc" "POST" "/x") "bad" (.other 7) rfl).2.2⟩

/-- C3: after `addParamAny(key, v)` with a well-formed value of a supported
non-float type, looking up `key` yields the canonical string of `v` whatever
was stored under `key` before: `v` itself for a string, "true"/"false" for a
boolean, and for an integer the canonical base-10 numeral (minus sign exactly
when negative, digits only, no leading zero except "0"; digits only for an
unsigned value), which parses back to `v`; the deferred error is unchanged. -/
theorem addParamAny_canonical (r : request) (key : String) (value : Value)
    (hwf : value.wf = true) :
    (∀ s, value = .str s → (r.addParamAny key value).params.lookup key = some s) ∧
    (∀ b, value = .bool b →
      (r.addParamAny key value).params.lookup key = some (if b then "true" else "false")) ∧
    (∀ i, value.signedValue = some i →
      ∃ s, (r.addParamAny key value).params.lookup key = some s ∧
        CanonicalDecimal s.data i ∧ parseDecimal s.data = some i) ∧
    (∀ n, value.unsignedValue = some n →
      ∃ s, (r.addParamAny key value).params.lookup key = some s ∧
        CanonicalDecimal s.data (n : Int) ∧ (∀ c ∈ s.data, c.isDigit = true) ∧
        parseDecimal s.data = some (n : Int)) ∧
    (value.isScalarKind = true → (r.addParamAny key value).err = r.err) := by
  have hs : ∀ v : Int, (-(2 : Int) ^ 63 ≤ v ∧ v < 2 ^ 63) →
      paramString value = some (FormatInt (convInt64 v)) →
      ∃ s, (r.addParamAny key value).params.lookup key = some s ∧
        CanonicalDecimal s.data v ∧ parseDecimal s.data = some v := by
    intro v hv hp
    rw [convInt64_of_range v hv] at hp
    rw [addParamAny_of_some _ _ _ _ hp]
    exact ⟨_, AList.lookup_insert _, FormatInt_canonical v⟩
  have hu : ∀ v : Nat, v < 2 ^ 64 →
      paramString value = some (FormatUint (convUint64 v)) →
      ∃ s, (r.addParamAny key value).params.lookup key = some s ∧
        CanonicalDecimal s.data (v : Int) ∧ (∀ c ∈ s.data, c.isDigit = true) ∧
        parseDecimal s.data = some (v : Int) := by
    intro v hv hp
    rw [convUint64_of_range v hv] at hp
    rw [addParamAny_of_some _ _ _ _ hp]
    exact ⟨_, AList.lookup_insert _, FormatUint_canonical v⟩
  refine ⟨?_, ?_, ?_, ?_, ?_⟩
  · rintro s rfl
    rw [addParamAny_of_some r key (.str s) s rfl]
    exact AList.lookup_insert _
  · rintro b rfl
    rw [addParamAny_of_some r key (.bool b) (FormatBool b) rfl]
    cases b <;> exact AList.lookup_insert _
  · intro i hi
    cases value <;> simp only [Value.signedValue, Option.some.injEq] at hi <;>
      first
      | exact Option.noConfusion hi
      | (subst hi
         simp only [Value.wf, decide_eq_true_eq] at hwf
         exact hs _ (by constructor <;> omega) rfl)
  · intro n hn
    cases value <;> simp only [Value.unsignedValue, Option.some.injEq] at hn <;>
      first
      | exact Option.noConfusion hn
      | (subst hn
         simp only [Value.wf, decide_eq_true_eq] at hwf
         exact hu _ (by omega) rfl)
  · intro hk
    cases hp : paramString value with
    | none =>
      rw [(paramString_eq_none_iff value).mp hp] at hk
      exact Bool.noConfusion hk
    | some val => rw [addParamAny_of_some _ _ _ _ hp]

/-- Witness of `addParamAny_canonical` at the 64-bit integer `-5`. -/
theorem addParamAny_canonical_witness :
    (Value.int64 (-5)).wf = true ∧
    ∃ s, ((newRequest "3.3.0" "abc" "GET" "/x").addParamAny "count" (.int64 (-5))).params.lookup
        "count" = some s ∧
      CanonicalDecimal s.data (-5) ∧ parseDecimal s.data = some (-5) :=
  ⟨by decide,
    (addParamAny_canonical (newRequest "3.3.0" "abc" "GET" "/x") "count" (.int64 (-5))
      (by decide)).2.2.1 (-5) rfl⟩

/-- C4: `Param(pairs)` is `addParamAny` applied to each pair from left to
right, and an unsupported pair does not stop it: every pair of supported type
is stored under its key, whatever pairs came before it, unless a later pair of
supported type has the same key (so of two supported pairs sharing a key the
later one is the one stored). -/
theorem Param_applies_each (r : request) (params : List anyParam) :
    r.Param params = params.foldl (fun acc p => acc.addParamAny p.key p.val) r ∧
    (∀ pre p post, params = pre ++ p :: post → p.val.isScalarKind = true →
      (∀ q ∈ post, q.key = p.key → q.val.isScalarKind = false) →
      ∃ s, paramString p.val = some s ∧ (r.Param params).params.lookup p.key = some s) := by
  constructor
  · induction params generalizing r with
    | nil => rfl
    | cons p t ih =>
      simp only [request.Param, List.foldl_cons]
      exact ih _
  · intro pre p post hparams hp hpost
    subst hparams
    obtain ⟨s, hs⟩ : ∃ s, paramString p.val = some s := by
      cases hq : paramString p.val with
      | none =>
        rw [(paramString_eq_none_iff p.val).mp hq] at hp
        exact Bool.noConfusion hp
      | some s => exact ⟨s, rfl⟩
    refine ⟨s, hs, ?_⟩
    rw [Param_append]
    simp only [request.Param]
    rw [Param_lookup_preserved p.key post _
      (fun q hq hk => (paramString_eq_none_iff q.val).mpr (hpost q hq hk))]
    rw [addParamAny_of_some _ _ _ _ hs]
    exact AList.lookup_insert _

/-- Witness of `Param_applies_each`: an unsupported pair, then two string
pairs under the same key; the last one is stored. -/
theorem Param_applies_each_witness :
    (Value.str "y").isScalarKind = true ∧
    ∃ s, paramString (.str "y") = some s ∧
      ((newRequest "3.3.0" "abc" "GET" "/x").Param
        [⟨"a", .other 1⟩, ⟨"k", .str "x"⟩, ⟨"k", .str "y"⟩]).params.lookup "k" = some s :=
  ⟨rfl,
    (Param_applies_each (newRequest "3.3.0" "abc" "GET" "/x")
      [⟨"a", .other 1⟩, ⟨"k", .str "x"⟩, ⟨"k", .str "y"⟩]).2
      [⟨"a", .other 1⟩, ⟨"k", .str "x"⟩] ⟨"k", .str "y"⟩ [] rfl rfl
      (fun _ hq => absurd hq (List.not_mem_nil _))⟩

/-- C5: on a builder with no recorded error, `Param(pairs)` leaves a deferred
error exactly when some pair has a value of unsupported type; a chain from
`newRequest` that uses only `addParam` and `addParamAny`/`Param` with supported
types ends with no deferred error and with `params` holding exactly the keys
the chain stored; and `new("GET", "/admin/getCluster")`, `addParam("name",
"cluster1")`, `addParamAny("count", int64 5)` gives name ↦ cluster1,
count ↦ 5 and nothing else. -/
theorem Param_error_iff_unsupported (marshal : Value → Except String (List Byte))
    (Version CommitID : String) :
    (∀ (r : request) (params : List anyParam), r.err = none →
      ((r.Param params).err ≠ none ↔ ∃ p ∈ params, p.val.isScalarKind = false)) ∧
    (∀ (method path : String) (ops : List Op), (∀ op ∈ ops, op.storesParams = true) →
      ∃ r1, runOps marshal (newRequest Version CommitID method path) ops = .ok r1 ∧
        r1.err = none ∧ ∀ k, k ∈ r1.params ↔ k ∈ chainParamKeys ops) ∧
    (((newRequest Version CommitID "GET" "/admin/getCluster").addParam "name"
        "cluster1").addParamAny "count" (.int64 5)).err = none ∧
    (((newRequest Version CommitID "GET" "/admin/getCluster").addParam "name"
        "cluster1").addParamAny "count" (.int64 5)).params.lookup "name" = some "cluster1" ∧
    (((newRequest Version CommitID "GET" "/admin/getCluster").addParam "name"
        "cluster1").addParamAny "count" (.int64 5)).params.lookup "count" = some "5" ∧
    (∀ k, k ∈ (((newRequest Version CommitID "GET" "/admin/getCluster").addParam "name"
        "cluster1").addParamAny "count" (.int64 5)).params ↔ k = "name" ∨ k = "count") := by
  have h5 : paramString (.int64 5) = some "5" := by decide
  refine ⟨?_, ?_, ?_, ?_, ?_, ?_⟩
  · intro r params herr
    rw [Param_err, herr]
    cases hl : lastUnsupported params with
    | none =>
      unfold lastUnsupported at hl
      rw [List.find?_eq_none] at hl
      constructor
      · intro hne
        exact absurd rfl hne
      · rintro ⟨p, hp, hk⟩
        have := hl p (List.mem_reverse.mpr hp)
        rw [(paramString_eq_none_iff p.val).mpr hk] at this
        exact absurd rfl this
    | some p =>
      unfold lastUnsupported at hl
      have hmem := List.mem_reverse.mp (List.mem_of_find?_eq_some hl)
      have hprop := List.find?_some hl
      constructor
      · intro _
        refine ⟨p, hmem, (paramString_eq_none_iff p.val).mp ?_⟩
        simpa using hprop
      · intro _ hn
        exact Option.noConfusion hn
  · intro method path ops hops
    obtain ⟨r1, h1, herr1, hk1⟩ :=
      runOps_storesParams marshal ops (newRequest Version CommitID method path) rfl hops
    refine ⟨r1, h1, herr1, ?_⟩
    intro k
    rw [hk1 k]
    have : k ∉ (newRequest Version CommitID method path).params := AList.not_mem_empty k
    tauto
  · rw [addParamAny_of_some _ _ _ _ h5]
    rfl
  · rw [addParamAny_of_some _ _ _ _ h5]
    show AList.lookup "name"
      (AList.insert "count" "5" (AList.insert "name" "cluster1" (∅ : StrMap))) = some "cluster1"
    rw [AList.lookup_insert_ne (by decide)]
    exact AList.lookup_insert _
  · rw [addParamAny_of_some _ _ _ _ h5]
    exact AList.lookup_insert _
  · intro k
    rw [addParamAny_of_some _ _ _ _ h5]
    show k ∈ AList.insert "count" "5" (AList.insert "name" "cluster1" (∅ : StrMap)) ↔ _
    simp only [AList.mem_insert]
    have : k ∉ (∅ : StrMap) := AList.not_mem_empty k
    tauto

/-- Witness of `Param_error_iff_unsupported`: a fresh builder and one pair of
unsupported type. -/
theorem Param_error_iff_unsupported_witness :
    (newRequest "3.3.0" "abc" "POST" "/x").err = none ∧
    (((newRequest "3.3.0" "abc" "POST" "/x").Param [⟨"bad", .other 1⟩]).err ≠ none ↔
      ∃ p ∈ [(⟨"bad", .other 1⟩ : anyParam)], p.val.isScalarKind = false) ∧
    ∃ r1, runOps sampleMarshal (newRequest "3.3.0" "abc" "GET" "/y")
        [.addParam "name" "cluster1", .Param [⟨"count", .int64 5⟩]] = .ok r1 ∧
      r1.err = none ∧
      ∀ k, k ∈ r1.params ↔
        k ∈ chainParamKeys [.addParam "name" "cluster1", .Param [⟨"count", .int64 5⟩]] :=
  ⟨rfl,
    (Param_error_iff_unsupported sampleMarshal "3.3.0" "abc").1
      (newRequest "3.3.0" "abc" "POST" "/x") [⟨"bad", .other 1⟩] rfl,
    (Param_error_iff_unsupported sampleMarshal "3.3.0" "abc").2.1 "GET" "/y"
      [.addParam "name" "cluster1", .Param [⟨"count", .int64 5⟩]] (by decide)⟩

/-! ## Headers -/

theorem pairLoop_no_index_fault (added : List String) (heven : added.length % 2 = 0)
    (fuel idx : Nat) (m : StrMap) (hidx : idx % 2 = 0) :
    pairLoop added fuel idx m ≠ .error .indexOutOfRange := by
  induction fuel generalizing idx m with
  | zero =>
    unfold pairLoop
    split <;> intro h <;> cases h
  | succ f ih =>
    unfold pairLoop
    by_cases hlt : idx < added.length
    · have h1 : idx + 1 < added.length := by omega
      rw [if_pos hlt, List.getElem?_eq_getElem hlt, List.getElem?_eq_getElem h1]
      exact ih (idx + 2) _ (by omega)
    · rw [if_neg hlt]
      intro h
      cases h

theorem lookup_insertPairs_overlay (base : StrMap) :
    ∀ (l : List String) (m1 m2 : StrMap),
      (∀ k, m1.lookup k = match m2.lookup k with
        | some v => some v
        | none => base.lookup k) →
      ∀ k, (insertPairs l m1).lookup k = match (insertPairs l m2).lookup k with
        | some v => some v
        | none => base.lookup k
  | [], _, _, h => h
  | [_], _, _, h => h
  | a :: b :: rest, m1, m2, h => by
    simp only [insertPairs]
    apply lookup_insertPairs_overlay base rest
    intro k
    by_cases hk : k = a
    · subst hk
      rw [AList.lookup_insert, AList.lookup_insert]
    · rw [AList.lookup_insert_ne hk, AList.lookup_insert_ne hk]
      exact h k

theorem mem_insertPairs (k : String) :
    ∀ (l : List String) (m : StrMap),
      k ∈ insertPairs l m ↔ k ∈ m ∨ ∃ i, i % 2 = 0 ∧ i + 1 < l.length ∧ l[i]? = some k
  | [], m => by simp [insertPairs]
  | [_], m => by simp [insertPairs]
  | a :: b :: rest, m => by
    simp only [insertPairs]
    rw [mem_insertPairs k rest (m.insert a b), AList.mem_insert]
    constructor
    · rintro ((hka | hm) | ⟨i, hi, hlt, hget⟩)
      · exact Or.inr ⟨0, rfl, by simp, by simp [hka]⟩
      · exact Or.inl hm
      · exact Or.inr ⟨i + 2, by omega, by simp at hlt ⊢; omega, by simpa using hget⟩
    · rintro (hm | ⟨i, hi, hlt, hget⟩)
      · exact Or.inl (Or.inr hm)
      · rcases Nat.eq_zero_or_pos i with h0 | hpos
        · subst h0
          have : a = k := by simpa using hget
          exact Or.inl (Or.inl this.symm)
        · obtain ⟨i2, rfl⟩ : ∃ i2, i = i2 + 2 := ⟨i - 2, by omega⟩
          exact Or.inr ⟨i2, by omega, by simp at hlt ⊢; omega, by simpa using hget⟩

theorem lookup_copyInto_empty (k : String) (headers : StrMap) :
    (copyInto headers ∅).lookup k = headers.lookup k := by
  rw [lookup_copyInto]
  cases headers.lookup k <;> rfl

theorem mem_copyInto_empty (k : String) (headers : StrMap) :
    k ∈ copyInto headers ∅ ↔ k ∈ headers := by
  rw [← AList.lookup_isSome, ← AList.lookup_isSome, lookup_copyInto_empty]

/-- C6: after `Header(h, added)` the value under a key `k` in the builder's
headers is the element following the last even-indexed occurrence of `k` among
the paired elements of `added` when there is one; otherwise `h[k]` when `k` is
a key of `h`; otherwise what the builder's headers held under `k` before. -/
theorem Header_precedence (r : request) (headers : StrMap) (added : List String)
    (k : String) :
    ∃ r1, r.Header headers added = .ok r1 ∧
      (∀ i, i % 2 = 0 → i + 1 < added.length → added[i]? = some k →
        (∀ j, i < j → j % 2 = 0 → j + 1 < added.length → added[j]? ≠ some k) →
        r1.header.lookup k = added[i + 1]?) ∧
      ((∀ i, i % 2 = 0 → i + 1 < added.length → added[i]? ≠ some k) →
        r1.header.lookup k = match headers.lookup k with
          | some v => some v
          | none => r.header.lookup k) := by
  refine ⟨_, Header_eq r headers added, ?_, ?_⟩
  · intro i hi hlt hget hlast
    have hlt2 : i + 1 < (trimAdded added).length := (trimAdded_paired added i hi).mpr hlt
    show (insertPairs (trimAdded added) (copyInto headers r.header)).lookup k = added[i + 1]?
    rw [lookup_insertPairs_present k (trimAdded added) _ i hi hlt2
      (by rw [trimAdded_getElem? added i (by omega)]; exact hget)
      (by
        intro j hij hj hjlt
        rw [trimAdded_getElem? added j (by omega)]
        exact hlast j hij hj ((trimAdded_paired added j hj).mp hjlt))]
    exact trimAdded_getElem? added (i + 1) hlt2
  · intro habs
    show (insertPairs (trimAdded added) (copyInto headers r.header)).lookup k = _
    rw [lookup_insertPairs_absent k (trimAdded added) _
      (by
        intro i hi hlt
        rw [trimAdded_getElem? added i (by omega)]
        exact habs i hi ((trimAdded_paired added i hi).mp hlt))]
    exact lookup_copyInto k headers r.header

/-- Witness of `Header_precedence`: the key "A" is paired twice in the
additional list and also in the base mapping; the later pair wins. -/
theorem Header_precedence_witness :
    ∃ r1, (newRequest "3.3.0" "abc" "GET" "/x").Header (AList.singleton "A" "0")
        ["A", "1", "A", "2", "B"] = .ok r1 ∧
      r1.header.lookup "A" = some "2" := by
  obtain ⟨r1, h1, hp, _⟩ := Header_precedence (newRequest "3.3.0" "abc" "GET" "/x")
    (AList.singleton "A" "0") ["A", "1", "A", "2", "B"] "A"
  refine ⟨r1, h1, ?_⟩
  exact hp 2 (by decide) (by decide) (by decide)
    (fun j h2 hj hlt => by
      have : j + 1 < 5 := hlt
      omega)

/-- C7: with an additional list of odd length, `Header` and `mergeHeader`
give exactly the result of the same call without the last element of the
list, and `Header` records no error on the builder. -/
theorem odd_added_drops_last (r : request) (headers : StrMap) (added : List String)
    (h : added.length % 2 = 1) :
    r.Header headers added = r.Header headers added.dropLast ∧
    mergeHeader headers added = mergeHeader headers added.dropLast ∧
    (∃ r1, r.Header headers added = .ok r1 ∧ r1.err = r.err) := by
  have h1 : trimAdded added = added.dropLast := trimAdded_of_odd added h
  have h2 : trimAdded added.dropLast = added.dropLast :=
    trimAdded_of_even _ (by rw [List.length_dropLast]; omega)
  refine ⟨?_, ?_, ⟨_, Header_eq r headers added, rfl⟩⟩
  · rw [Header_eq, Header_eq, h1, h2]
  · rw [mergeHeader_eq, mergeHeader_eq, h1, h2]

/-- Witness of `odd_added_drops_last` on a list of three elements. -/
theorem odd_added_drops_last_witness :
    ["A", "1", "B"].length % 2 = 1 ∧
    (newRequest "3.3.0" "abc" "GET" "/x").Header ∅ ["A", "1", "B"]
      = (newRequest "3.3.0" "abc" "GET" "/x").Header ∅ ["A", "1"] ∧
    mergeHeader ∅ ["A", "1", "B"] = mergeHeader ∅ ["A", "1"] :=
  ⟨rfl,
    (odd_added_drops_last (newRequest "3.3.0" "abc" "GET" "/x") ∅ ["A", "1", "B"] rfl).1,
    (odd_added_drops_last (newRequest "3.3.0" "abc" "GET" "/x") ∅ ["A", "1", "B"] rfl).2.1⟩

/-- C8: the pairing loop of `Header` and `mergeHeader` never indexes the
trimmed additional list out of range: every even index `idx` below its length
has `idx + 1` below its length too, the loop started at an even index never
ends in an index fault whatever its fuel, and both operations return a result
for every additional list. -/
theorem header_loops_in_bounds (r : request) (headers : StrMap) (added : List String) :
    (∀ idx, idx % 2 = 0 → idx < (trimAdded added).length →
      idx + 1 < (trimAdded added).length) ∧
    (∀ fuel idx m, idx % 2 = 0 →
      pairLoop (trimAdded added) fuel idx m ≠ .error .indexOutOfRange) ∧
    (∃ r1, r.Header headers added = .ok r1) ∧
    (∃ m, mergeHeader headers added = .ok m) := by
  have heven := trimAdded_length_even added
  refine ⟨?_, ?_, ⟨_, Header_eq r headers added⟩, ⟨_, mergeHeader_eq headers added⟩⟩
  · intro idx hidx hlt
    omega
  · intro fuel idx m hidx
    exact pairLoop_no_index_fault _ heven fuel idx m hidx

/-- Witness of `header_loops_in_bounds` on a list of one element. -/
theorem header_loops_in_bounds_witness :
    pairLoop (trimAdded ["A"]) 1 0 ∅ ≠ .error .indexOutOfRange ∧
    (∃ r1, (newRequest "3.3.0" "abc" "GET" "/x").Header ∅ ["A"] = .ok r1) ∧
    (∃ m, mergeHeader ∅ ["A"] = .ok m) :=
  ⟨(header_loops_in_bounds (newRequest "3.3.0" "abc" "GET" "/x") ∅ ["A"]).2.1 1 0 ∅ rfl,
    (header_loops_in_bounds (newRequest "3.3.0" "abc" "GET" "/x") ∅ ["A"]).2.2.1,
    (header_loops_in_bounds (newRequest "3.3.0" "abc" "GET" "/x") ∅ ["A"]).2.2.2⟩

/-- C9: the headers of a builder after `Header(h, added)` are its previous
headers overlaid with `mergeHeader(h, added)`, the merged entries winning; the
keys of `mergeHeader(h, added)` are the keys of `h` and the paired keys of
`added` and no others; and `mergeHeader(h, [])` is the mapping `h`. -/
theorem mergeHeader_agrees_with_Header (r : request) (headers : StrMap)
    (added : List String) :
    (∃ r1 m, r.Header headers added = .ok r1 ∧ mergeHeader headers added = .ok m ∧
      (∀ k, r1.header.lookup k = match m.lookup k with
        | some v => some v
        | none => r.header.lookup k) ∧
      (∀ k, k ∈ m ↔
        k ∈ headers ∨ ∃ i, i % 2 = 0 ∧ i + 1 < added.length ∧ added[i]? = some k)) ∧
    (∃ m0, mergeHeader headers [] = .ok m0 ∧ (∀ k, m0.lookup k = headers.lookup k) ∧
      m0.entries.Perm headers.entries) := by
  constructor
  · refine ⟨_, _, Header_eq r headers added, mergeHeader_eq headers added, ?_, ?_⟩
    · apply lookup_insertPairs_overlay r.header (trimAdded added)
      intro k
      rw [lookup_copyInto, lookup_copyInto_empty]
    · intro k
      rw [mem_insertPairs, mem_copyInto_empty]
      constructor
      · rintro (hm | ⟨i, hi, hlt, hget⟩)
        · exact Or.inl hm
        · refine Or.inr ⟨i, hi, (trimAdded_paired added i hi).mp hlt, ?_⟩
          rw [← trimAdded_getElem? added i (by omega)]
          exact hget
      · rintro (hm | ⟨i, hi, hlt, hget⟩)
        · exact Or.inl hm
        · have hlt2 := (trimAdded_paired added i hi).mpr hlt
          refine Or.inr ⟨i, hi, hlt2, ?_⟩
          rw [trimAdded_getElem? added i (by omega)]
          exact hget
  · refine ⟨copyInto headers ∅, mergeHeader_eq headers [],
      fun k => lookup_copyInto_empty k headers, ?_⟩
    apply List.lookup_ext (copyInto headers ∅).nodupKeys headers.nodupKeys
    intro x y
    have := lookup_copyInto_empty x headers
    unfold AList.lookup at this
    rw [this]

/-- C10: `Body` with a byte sequence stores it byte for byte, whatever the
encoder is, and leaves the deferred error unchanged; `Body` with a value that
is not a byte sequence and on which the encoder succeeds stores the encoder's
output. -/
theorem Body_stores_bytes_or_encoding (marshal : Value → Except String (List Byte))
    (r : request) :
    (∀ b, (r.Body marshal (.bytes b)).body = b ∧ (r.Body marshal (.bytes b)).err = r.err ∧
      ∀ marshal2, r.Body marshal2 (.bytes b) = r.Body marshal (.bytes b)) ∧
    (∀ v e, (∀ b, v ≠ .bytes b) → marshal v = .ok e → (r.Body marshal v).body = e) := by
  constructor
  · intro b
    exact ⟨rfl, rfl, fun _ => rfl⟩
  · intro v e hv he
    cases v with
    | bytes b => exact absurd rfl (hv b)
    | _ => simp only [request.Body, he]

/-- Witness of `Body_stores_bytes_or_encoding`: a string value, which the
sample encoder encodes, replaces a body set before. -/
theorem Body_stores_bytes_or_encoding_witness :
    sampleMarshal (.str "x") = .ok [] ∧
    (((newRequest "3.3.0" "abc" "POST" "/x").setBody [1, 2]).Body sampleMarshal
      (.str "x")).body = [] :=
  ⟨rfl,
    (Body_stores_bytes_or_encoding sampleMarshal
      ((newRequest "3.3.0" "abc" "POST" "/x").setBody [1, 2])).2 (.str "x") []
      (fun _ hb => Value.noConfusion hb) rfl⟩

/-! ## Body failure, construction, repeated stores -/

theorem mapLen_eq_keys (m : StrMap) : mapLen m = m.keys.length := by
  unfold mapLen AList.keys List.keys
  rw [List.length_map]

theorem mapLen_insert_of_mem (m : StrMap) (k v : String) (h : k ∈ m) :
    mapLen (m.insert k v) = mapLen m := by
  rw [mapLen_eq_keys, mapLen_eq_keys, AList.keys_insert, List.length_cons]
  have hk : k ∈ m.keys := AList.mem_keys.mp h
  rw [List.length_erase_of_mem hk]
  have : 0 < m.keys.length := List.length_pos_of_mem hk
  omega

theorem mapLen_insert_of_not_mem (m : StrMap) (k v : String) (h : k ∉ m) :
    mapLen (m.insert k v) = mapLen m + 1 := by
  rw [mapLen_eq_keys, mapLen_eq_keys, AList.keys_insert, List.length_cons]
  have hk : k ∉ m.keys := fun hm => h (AList.mem_keys.mpr hm)
  rw [List.erase_of_not_mem hk]

theorem mapLen_insert_bounds (m : StrMap) (k v : String) :
    mapLen m ≤ mapLen (m.insert k v) ∧ mapLen (m.insert k v) ≤ mapLen m + 1 := by
  by_cases h : k ∈ m
  · rw [mapLen_insert_of_mem m k v h]
    omega
  · rw [mapLen_insert_of_not_mem m k v h]
    omega

/-- C11: `Body` with a value that is not a byte sequence and on which the
encoder fails leaves the body exactly what it was, leaves the deferred error
non-empty, and leaves `params` and the headers unchanged. -/
theorem Body_encoder_failure (marshal : Value → Except String (List Byte)) (r : request)
    (v : Value) (msg : String) (hv : ∀ b, v ≠ .bytes b) (hm : marshal v = .error msg) :
    (r.Body marshal v).body = r.body ∧ (r.Body marshal v).err ≠ none ∧
    (r.Body marshal v).params = r.params ∧ (r.Body marshal v).header = r.header := by
  cases v with
  | bytes b => exact absurd rfl (hv b)
  | _ => simp [request.Body, hm]

/-- Witness of `Body_encoder_failure`: a body set by `setBody` survives a
`Body` call whose encoder fails. -/
theorem Body_encoder_failure_witness :
    sampleMarshal (.other 3) = .error "unsupported type" ∧
    (((newRequest "3.3.0" "abc" "POST" "/x").setBody [1, 2]).Body sampleMarshal
      (.other 3)).body = [1, 2] ∧
    (((newRequest "3.3.0" "abc" "POST" "/x").setBody [1, 2]).Body sampleMarshal
      (.other 3)).err ≠ none :=
  ⟨rfl,
    (Body_encoder_failure sampleMarshal ((newRequest "3.3.0" "abc" "POST" "/x").setBody [1, 2])
      (.other 3) "unsupported type" (fun _ hb => Value.noConfusion hb) rfl).1,
    (Body_encoder_failure sampleMarshal ((newRequest "3.3.0" "abc" "POST" "/x").setBody [1, 2])
      (.other 3) "unsupported type" (fun _ hb => Value.noConfusion hb) rfl).2.1⟩

/-- C12: `newRequest(method, path)` returns a builder with the given method
and path, no parameters, exactly one header, "User-Agent" with the identity
string `ReqHeaderUA`, an empty body and no deferred error. -/
theorem newRequest_fresh (Version CommitID method path : String) :
    (newRequest Version CommitID method path).method = method ∧
    (newRequest Version CommitID method path).path = path ∧
    (newRequest Version CommitID method path).params.entries = [] ∧
    mapLen (newRequest Version CommitID method path).params = 0 ∧
    (newRequest Version CommitID method path).header.entries
      = [⟨"User-Agent", ReqHeaderUA Version CommitID⟩] ∧
    mapLen (newRequest Version CommitID method path).header = 1 ∧
    (newRequest Version CommitID method path).header.lookup "User-Agent"
      = some (ReqHeaderUA Version CommitID) ∧
    (∀ k, k ∈ (newRequest Version CommitID method path).header ↔ k = "User-Agent") ∧
    (newRequest Version CommitID method path).body = [] ∧
    (newRequest Version CommitID method path).err = none := by
  have hh : (newRequest Version CommitID method path).header
      = AList.singleton "User-Agent" (ReqHeaderUA Version CommitID) := AList.insert_empty _ _
  refine ⟨rfl, rfl, rfl, rfl, ?_, ?_, ?_, ?_, rfl, rfl⟩
  · rw [hh]
    rfl
  · rw [hh]
    rfl
  · exact AList.lookup_insert _
  · intro k
    rw [hh, AList.mem_keys, AList.keys_singleton, List.mem_singleton]

/-- C13: after `addParam(key, v1)` then `addParam(key, v2)` the value under
`key` is `v2` and `params` has as many entries as after the first call alone;
the same holds for `addHeader` on the headers; and `addParam` (`addHeader`)
under a key the map already contains does not change its number of entries. -/
theorem repeated_store_last_wins (r : request) (key v1 v2 : String) :
    ((r.addParam key v1).addParam key v2).params.lookup key = some v2 ∧
    mapLen ((r.addParam key v1).addParam key v2).params = mapLen (r.addParam key v1).params ∧
    ((r.addHeader key v1).addHeader key v2).header.lookup key = some v2 ∧
    mapLen ((r.addHeader key v1).addHeader key v2).header
      = mapLen (r.addHeader key v1).header ∧
    (key ∈ r.params → mapLen (r.addParam key v1).params = mapLen r.params) ∧
    (key ∈ r.header → mapLen (r.addHeader key v1).header = mapLen r.header) := by
  refine ⟨AList.lookup_insert _, ?_, AList.lookup_insert _, ?_, ?_, ?_⟩
  · exact mapLen_insert_of_mem _ key v2 ((AList.mem_insert _).mpr (Or.inl rfl))
  · exact mapLen_insert_of_mem _ key v2 ((AList.mem_insert _).mpr (Or.inl rfl))
  · exact mapLen_insert_of_mem _ key v1
  · exact mapLen_insert_of_mem _ key v1

/-- Witness of `repeated_store_last_wins`: overwriting the "User-Agent"
header of a fresh builder keeps the header count at one. -/
theorem repeated_store_last_wins_witness :
    "User-Agent" ∈ (newRequest "3.3.0" "abc" "GET" "/x").header ∧
    mapLen ((newRequest "3.3.0" "abc" "GET" "/x").addHeader "User-Agent" "curl").header
      = mapLen (newRequest "3.3.0" "abc" "GET" "/x").header :=
  ⟨by decide,
    (repeated_store_last_wins (newRequest "3.3.0" "abc" "GET" "/x") "User-Agent" "curl"
      "curl").2.2.2.2.2 (by decide)⟩

/-! ## Frame conditions and chains of calls -/

theorem addParamAny_frame (r : request) (key : String) (value : Value) :
    (r.addParamAny key value).method = r.method ∧ (r.addParamAny key value).path = r.path ∧
    (r.addParamAny key value).header = r.header ∧ (r.addParamAny key value).body = r.body := by
  unfold request.addParamAny
  cases paramString value <;> exact ⟨rfl, rfl, rfl, rfl⟩

theorem Param_frame (params : List anyParam) (r : request) :
    (r.Param params).method = r.method ∧ (r.Param params).path = r.path ∧
    (r.Param params).header = r.header ∧ (r.Param params).body = r.body := by
  induction params generalizing r with
  | nil => exact ⟨rfl, rfl, rfl, rfl⟩
  | cons p t ih =>
    simp only [request.Param]
    obtain ⟨h1, h2, h3, h4⟩ := ih (r.addParamAny p.key p.val)
    obtain ⟨g1, g2, g3, g4⟩ := addParamAny_frame r p.key p.val
    exact ⟨h1.trans g1, h2.trans g2, h3.trans g3, h4.trans g4⟩

theorem Body_frame (marshal : Value → Except String (List Byte)) (r : request) (body : Value) :
    (r.Body marshal body).method = r.method ∧ (r.Body marshal body).path = r.path ∧
    (r.Body marshal body).params = r.params ∧ (r.Body marshal body).header = r.header := by
  unfold request.Body
  cases body <;> first
    | exact ⟨rfl, rfl, rfl, rfl⟩
    | (dsimp only
       split <;> exact ⟨rfl, rfl, rfl, rfl⟩)

theorem addParamAny_err_ne_none (r : request) (key : String) (value : Value)
    (h : r.err ≠ none) : (r.addParamAny key value).err ≠ none := by
  unfold request.addParamAny
  cases paramString value with
  | none => exact fun hn => Option.noConfusion hn
  | some val => exact h

theorem Param_err_ne_none (params : List anyParam) (r : request) (h : r.err ≠ none) :
    (r.Param params).err ≠ none := by
  rw [Param_err]
  cases lastUnsupported params with
  | none => exact h
  | some p => exact fun hn => Option.noConfusion hn

theorem Body_err_ne_none (marshal : Value → Except String (List Byte)) (r : request)
    (body : Value) (h : r.err ≠ none) : (r.Body marshal body).err ≠ none := by
  unfold request.Body
  cases body <;> first
    | exact h
    | (dsimp only
       split
       · exact fun hn => Option.noConfusion hn
       · exact h)

theorem addParamAny_mem_params (r : request) (key : String) (value : Value) (k : String)
    (h : k ∈ r.params) : k ∈ (r.addParamAny key value).params := by
  unfold request.addParamAny
  cases paramString value with
  | none => exact h
  | some val => exact (AList.mem_insert _).mpr (Or.inr h)

theorem Param_mem_params (params : List anyParam) (r : request) (k : String)
    (h : k ∈ r.params) : k ∈ (r.Param params).params := by
  induction params generalizing r with
  | nil => exact h
  | cons p t ih =>
    simp only [request.Param]
    exact ih _ (addParamAny_mem_params r p.key p.val k h)

theorem mem_copyInto_of_mem (headers m : StrMap) (k : String) (h : k ∈ m) :
    k ∈ copyInto headers m := by
  rw [← AList.lookup_isSome] at h ⊢
  rw [lookup_copyInto]
  cases headers.lookup k with
  | none => exact h
  | some v => rfl

theorem runOps_append (marshal : Value → Except String (List Byte)) (pre post : List Op)
    (r rmid : request) (h : runOps marshal r pre = .ok rmid) :
    runOps marshal r (pre ++ post) = runOps marshal rmid post := by
  induction pre generalizing r with
  | nil =>
    have : r = rmid := by
      simp only [runOps] at h
      exact Except.ok.inj h
    rw [this]
    rfl
  | cons op t ih =>
    simp only [List.cons_append, runOps] at h ⊢
    cases hop : op.apply marshal r with
    | error f =>
      rw [hop] at h
      cases h
    | ok r2 =>
      rw [hop] at h
      exact ih r2 h

theorem runOps_preserves (marshal : Value → Except String (List Byte))
    (P : request → Prop)
    (hstep : ∀ (r : request) (op : Op), P r → ∃ r1, op.apply marshal r = .ok r1 ∧ P r1) :
    ∀ (ops : List Op) (r : request), P r → ∃ r1, runOps marshal r ops = .ok r1 ∧ P r1 := by
  intro ops
  induction ops with
  | nil => exact fun r hr => ⟨r, rfl, hr⟩
  | cons op t ih =>
    intro r hr
    obtain ⟨r2, h2, hp2⟩ := hstep r op hr
    obtain ⟨r1, h1, hp1⟩ := ih r2 hp2
    refine ⟨r1, ?_, hp1⟩
    unfold runOps
    rw [h2]
    exact h1

/-- C14: every mutator call, with any arguments and whether or not it
records an error, returns a builder with the method and path it had before;
so after any chain of calls on `newRequest(method, path)` the method and path
are the strings given at construction. -/
theorem method_path_fixed (marshal : Value → Except String (List Byte)) :
    (∀ (r : request) (op : Op),
      ∃ r1, op.apply marshal r = .ok r1 ∧ r1.method = r.method ∧ r1.path = r.path) ∧
    (∀ (Version CommitID method path : String) (ops : List Op),
      ∃ r1, runOps marshal (newRequest Version CommitID method path) ops = .ok r1 ∧
        r1.method = method ∧ r1.path = path) := by
  have hop : ∀ (r : request) (op : Op),
      ∃ r1, op.apply marshal r = .ok r1 ∧ r1.method = r.method ∧ r1.path = r.path := by
    intro r op
    cases op with
    | addParamAny key value =>
      exact ⟨_, rfl, (addParamAny_frame r key value).1, (addParamAny_frame r key value).2.1⟩
    | addParam key value => exact ⟨_, rfl, rfl, rfl⟩
    | addHeader key value => exact ⟨_, rfl, rfl, rfl⟩
    | setBody body => exact ⟨_, rfl, rfl, rfl⟩
    | Param params => exact ⟨_, rfl, (Param_frame params r).1, (Param_frame params r).2.1⟩
    | Header headers added => exact ⟨_, Header_eq r headers added, rfl, rfl⟩
    | Body body => exact ⟨_, rfl, (Body_frame marshal r body).1, (Body_frame marshal r body).2.1⟩
  refine ⟨hop, ?_⟩
  intro Version CommitID method path ops
  exact runOps_preserves marshal (fun r => r.method = method ∧ r.path = path)
    (fun r op hr => by
      obtain ⟨r1, h1, hm, hp⟩ := hop r op
      exact ⟨r1, h1, hm.trans hr.1, hp.trans hr.2⟩)
    ops (newRequest Version CommitID method path) ⟨rfl, rfl⟩

/-- C15: on a builder whose deferred error is non-empty, every mutator call,
including the ones that succeed, returns a builder whose deferred error is
non-empty; so it is still non-empty after any further chain of calls, and an
error recorded in the middle of a chain is visible at its end. -/
theorem deferred_error_never_cleared (marshal : Value → Except String (List Byte)) :
    (∀ (r : request) (op : Op), r.err ≠ none →
      ∃ r1, op.apply marshal r = .ok r1 ∧ r1.err ≠ none) ∧
    (∀ (r : request) (ops : List Op), r.err ≠ none →
      ∃ r1, runOps marshal r ops = .ok r1 ∧ r1.err ≠ none) ∧
    (∀ (r rmid : request) (pre post : List Op), runOps marshal r pre = .ok rmid →
      rmid.err ≠ none → ∃ r1, runOps marshal r (pre ++ post) = .ok r1 ∧ r1.err ≠ none) := by
  have hop : ∀ (r : request) (op : Op), r.err ≠ none →
      ∃ r1, op.apply marshal r = .ok r1 ∧ r1.err ≠ none := by
    intro r op herr
    cases op with
    | addParamAny key value => exact ⟨_, rfl, addParamAny_err_ne_none r key value herr⟩
    | addParam key value => exact ⟨_, rfl, herr⟩
    | addHeader key value => exact ⟨_, rfl, herr⟩
    | setBody body => exact ⟨_, rfl, herr⟩
    | Param params => exact ⟨_, rfl, Param_err_ne_none params r herr⟩
    | Header headers added => exact ⟨_, Header_eq r headers added, herr⟩
    | Body body => exact ⟨_, rfl, Body_err_ne_none marshal r body herr⟩
  have hchain := runOps_preserves marshal (fun r => r.err ≠ none) hop
  refine ⟨hop, fun r ops herr => hchain ops r herr, ?_⟩
  intro r rmid pre post hpre herr
  rw [runOps_append marshal pre post r rmid hpre]
  exact hchain post rmid herr

/-- Witness of `deferred_error_never_cleared`: calls that succeed on a builder
holding an error leave the error in place. -/
theorem deferred_error_never_cleared_witness :
    failedBuilder.err ≠ none ∧
    ∃ r1, runOps sampleMarshal failedBuilder
        [.addParamAny "n" (.int64 5), .Body (.bytes [1]), .Header ∅ ["A", "1"]] = .ok r1 ∧
      r1.err ≠ none :=
  ⟨by decide,
    (deferred_error_never_cleared sampleMarshal).2.1 failedBuilder
      [.addParamAny "n" (.int64 5), .Body (.bytes [1]), .Header ∅ ["A", "1"]] (by decide)⟩

/-- C18: each mutator changes only its own part of the builder: `addParam`,
`addParamAny` and `Param` leave the headers and the body unchanged;
`addHeader` and `Header` leave `params`, the body and the deferred error
unchanged; `setBody` leaves `params`, the headers and the deferred error
unchanged; `Body` leaves `params` and the headers unchanged; and `addParam`,
`addParamAny` and `addHeader` leave the value under every key other than the
one written unchanged. -/
theorem mutators_frame (marshal : Value → Except String (List Byte)) (r : request) :
    (∀ key value, (r.addParam key value).header = r.header ∧
      (r.addParam key value).body = r.body) ∧
    (∀ key value, (r.addParamAny key value).header = r.header ∧
      (r.addParamAny key value).body = r.body) ∧
    (∀ params, (r.Param params).header = r.header ∧ (r.Param params).body = r.body) ∧
    (∀ key value, (r.addHeader key value).params = r.params ∧
      (r.addHeader key value).body = r.body ∧ (r.addHeader key value).err = r.err) ∧
    (∀ headers added, ∃ r1, r.Header headers added = .ok r1 ∧ r1.params = r.params ∧
      r1.body = r.body ∧ r1.err = r.err) ∧
    (∀ body, (r.setBody body).params = r.params ∧ (r.setBody body).header = r.header ∧
      (r.setBody body).err = r.err) ∧
    (∀ body, (r.Body marshal body).params = r.params ∧
      (r.Body marshal body).header = r.header) ∧
    (∀ key value k, k ≠ key →
      (r.addParam key value).params.lookup k = r.params.lookup k) ∧
    (∀ key value k, k ≠ key →
      (r.addParamAny key value).params.lookup k = r.params.lookup k) ∧
    (∀ key value k, k ≠ key →
      (r.addHeader key value).header.lookup k = r.header.lookup k) := by
  refine ⟨fun _ _ => ⟨rfl, rfl⟩, ?_, ?_, fun _ _ => ⟨rfl, rfl, rfl⟩, ?_,
    fun _ => ⟨rfl, rfl, rfl⟩, ?_, ?_, ?_, ?_⟩
  · intro key value
    exact ⟨(addParamAny_frame r key value).2.2.1, (addParamAny_frame r key value).2.2.2⟩
  · intro params
    exact ⟨(Param_frame params r).2.2.1, (Param_frame params r).2.2.2⟩
  · intro headers added
    exact ⟨_, Header_eq r headers added, rfl, rfl, rfl⟩
  · intro body
    exact ⟨(Body_frame marshal r body).2.2.1, (Body_frame marshal r body).2.2.2⟩
  · intro key value k hk
    exact AList.lookup_insert_ne hk
  · intro key value k hk
    unfold request.addParamAny
    cases paramString value with
    | none => rfl
    | some val => exact AList.lookup_insert_ne hk
  · intro key value k hk
    exact AList.lookup_insert_ne hk

/-- Witness of `mutators_frame`: storing the parameter "count" leaves the
parameter "name" as it was. -/
theorem mutators_frame_witness :
    "name" ≠ "count" ∧
    (((newRequest "3.3.0" "abc" "GET" "/x").addParam "name" "cluster1").addParamAny "count"
      (.int64 5)).params.lookup "name"
      = ((newRequest "3.3.0" "abc" "GET" "/x").addParam "name" "cluster1").params.lookup "name" :=
  ⟨by decide,
    (mutators_frame sampleMarshal
      ((newRequest "3.3.0" "abc" "GET" "/x").addParam "name" "cluster1")).2.2.2.2.2.2.2.2.1
      "count" (.int64 5) "name" (by decide)⟩

/-- C19: no mutator call removes a key: every key of `params` and every key
of the headers before the call is still a key after it; so "User-Agent" is a
key of the headers of every builder reached from `newRequest` by any chain of
calls. -/
theorem no_key_removed (marshal : Value → Except String (List Byte)) :
    (∀ (r : request) (op : Op),
      ∃ r1, op.apply marshal r = .ok r1 ∧ (∀ k, k ∈ r.params → k ∈ r1.params) ∧
        (∀ k, k ∈ r.header → k ∈ r1.header)) ∧
    (∀ (Version CommitID method path : String) (ops : List Op),
      ∃ r1, runOps marshal (newRequest Version CommitID method path) ops = .ok r1 ∧
        "User-Agent" ∈ r1.header) := by
  have hop : ∀ (r : request) (op : Op),
      ∃ r1, op.apply marshal r = .ok r1 ∧ (∀ k, k ∈ r.params → k ∈ r1.params) ∧
        (∀ k, k ∈ r.header → k ∈ r1.header) := by
    intro r op
    cases op with
    | addParamAny key value =>
      refine ⟨_, rfl, fun k hk => addParamAny_mem_params r key value k hk, fun k hk => ?_⟩
      rw [(addParamAny_frame r key value).2.2.1]
      exact hk
    | addParam key value =>
      exact ⟨_, rfl, fun k hk => (AList.mem_insert _).mpr (Or.inr hk), fun _ hk => hk⟩
    | addHeader key value =>
      exact ⟨_, rfl, fun _ hk => hk, fun k hk => (AList.mem_insert _).mpr (Or.inr hk)⟩
    | setBody body => exact ⟨_, rfl, fun _ hk => hk, fun _ hk => hk⟩
    | Param params =>
      refine ⟨_, rfl, fun k hk => Param_mem_params params r k hk, fun k hk => ?_⟩
      rw [(Param_frame params r).2.2.1]
      exact hk
    | Header headers added =>
      refine ⟨_, Header_eq r headers added, fun _ hk => hk, fun k hk => ?_⟩
      exact (mem_insertPairs k _ _).mpr (Or.inl (mem_copyInto_of_mem headers r.header k hk))
    | Body body =>
      refine ⟨_, rfl, fun k hk => ?_, fun k hk => ?_⟩
      · rw [(Body_frame marshal r body).2.2.1]
        exact hk
      · rw [(Body_frame marshal r body).2.2.2]
        exact hk
  refine ⟨hop, ?_⟩
  intro Version CommitID method path ops
  exact runOps_preserves marshal (fun r => "User-Agent" ∈ r.header)
    (fun r op hr => by
      obtain ⟨r1, h1, _, hh⟩ := hop r op
      exact ⟨r1, h1, hh _ hr⟩)
    ops (newRequest Version CommitID method path)
    ((AList.mem_insert _).mpr (Or.inl rfl))

/-- Witness of `no_key_removed`: the "User-Agent" key of a fresh builder is
still a key after `Header` overwrites it. -/
theorem no_key_removed_witness :
    "User-Agent" ∈ (newRequest "3.3.0" "abc" "GET" "/x").header ∧
    ∃ r1, Op.apply sampleMarshal (newRequest "3.3.0" "abc" "GET" "/x")
        (.Header ∅ ["User-Agent", "curl"]) = .ok r1 ∧
      "User-Agent" ∈ r1.header := by
  obtain ⟨r1, h1, _, hh⟩ := (no_key_removed sampleMarshal).1
    (newRequest "3.3.0" "abc" "GET" "/x") (.Header ∅ ["User-Agent", "curl"])
  exact ⟨by decide, r1, h1, hh _ (by decide)⟩

/-! ## Floating-point parameters -/

theorem roundHalfEven_spec (num den : Nat) (hden : 0 < den) :
    2 * (roundHalfEven num den * den) ≤ 2 * num + den ∧
    2 * num ≤ 2 * (roundHalfEven num den * den) + den ∧
    ((2 * (roundHalfEven num den * den) = 2 * num + den ∨
        2 * num = 2 * (roundHalfEven num den * den) + den) →
      roundHalfEven num den % 2 = 0) := by
  have hdm := Nat.div_add_mod num den
  have hr : num % den < den := Nat.mod_lt _ hden
  have hcomm : num / den * den = den * (num / den) := Nat.mul_comm _ _
  unfold roundHalfEven
  simp only
  split
  · rename_i h
    rw [Nat.add_mul, Nat.one_mul, hcomm]
    rcases h with h | ⟨h1, h2⟩
    · refine ⟨by omega, by omega, ?_⟩
      intro h3
      omega
    · refine ⟨by omega, by omega, ?_⟩
      intro _
      omega
  · rename_i h
    rw [hcomm]
    have h1 : ¬ den < 2 * (num % den) := fun hh => h (Or.inl hh)
    have h2 : 2 * (num % den) = den → ¬ (num / den % 2 = 1) :=
      fun ha hb => h (Or.inr ⟨ha, hb⟩)
    refine ⟨by omega, by omega, ?_⟩
    intro h3
    have h4 : 2 * (num % den) = den := by omega
    have := h2 h4
    omega

theorem scaled6_nearest (mant : Nat) (exp : Int) :
    NearestScaled6 mant exp (scaled6 mant exp) := by
  unfold scaled6
  split
  · rename_i h
    have hexp : (2 : ℚ) ^ exp = ((2 ^ exp.toNat : Nat) : ℚ) := by
      conv_lhs => rw [← Int.toNat_of_nonneg h]
      rw [zpow_natCast]
      push_cast
      rfl
    have hz : ((mant * 2 ^ exp.toNat * 10 ^ 6 : Nat) : ℚ)
        - (mant : ℚ) * (2 : ℚ) ^ exp * 10 ^ 6 = 0 := by
      rw [hexp]
      push_cast
      ring
    unfold NearestScaled6
    rw [hz]
    norm_num
  · rename_i h
    have hk : exp = -((-exp).toNat : Int) := by
      rw [Int.toNat_of_nonneg (by omega)]
      ring
    generalize (-exp).toNat = k at hk
    subst hk
    have hden : 0 < 2 ^ k := Nat.pos_pow_of_pos k (by decide)
    obtain ⟨h1, h2, h3⟩ := roundHalfEven_spec (mant * 10 ^ 6) (2 ^ k) hden
    generalize roundHalfEven (mant * 10 ^ 6) (2 ^ k) = n at h1 h2 h3
    have hd : (0 : ℚ) < ((2 ^ k : Nat) : ℚ) := by exact_mod_cast hden
    have hpow : (2 : ℚ) ^ (-(k : Int)) = 1 / ((2 ^ k : Nat) : ℚ) := by
      rw [zpow_neg, zpow_natCast]
      push_cast
      ring
    have q1 : (2 : ℚ) * ((n : ℚ) * ((2 ^ k : Nat) : ℚ))
        ≤ 2 * ((mant : ℚ) * 10 ^ 6) + ((2 ^ k : Nat) : ℚ) := by
      exact_mod_cast h1
    have q2 : (2 : ℚ) * ((mant : ℚ) * 10 ^ 6)
        ≤ 2 * ((n : ℚ) * ((2 ^ k : Nat) : ℚ)) + ((2 ^ k : Nat) : ℚ) := by
      exact_mod_cast h2
    have hdiff : (n : ℚ) - (mant : ℚ) * (2 : ℚ) ^ (-(k : Int)) * 10 ^ 6
        = (2 * ((n : ℚ) * ((2 ^ k : Nat) : ℚ)) - 2 * ((mant : ℚ) * 10 ^ 6))
          / (2 * ((2 ^ k : Nat) : ℚ)) := by
      rw [hpow]
      field_simp
      ring
    unfold NearestScaled6
    rw [hdiff]
    have h2D : (0 : ℚ) < 2 * ((2 ^ k : Nat) : ℚ) := by linarith
    rw [abs_div, abs_of_pos h2D]
    constructor
    · rw [div_le_iff₀ h2D, abs_le]
      constructor <;> linarith
    · intro ht
      rw [div_eq_iff (ne_of_gt h2D)] at ht
      have habs : |2 * ((n : ℚ) * ((2 ^ k : Nat) : ℚ)) - 2 * ((mant : ℚ) * 10 ^ 6)|
          = ((2 ^ k : Nat) : ℚ) := by
        rw [ht]
        ring
      rcases (abs_eq (le_of_lt hd)).mp habs with hA | hA
      · apply h3
        left
        have : (2 : ℚ) * ((n : ℚ) * ((2 ^ k : Nat) : ℚ))
            = 2 * ((mant : ℚ) * 10 ^ 6) + ((2 ^ k : Nat) : ℚ) := by linarith
        exact_mod_cast this
      · apply h3
        right
        have : (2 : ℚ) * ((mant : ℚ) * 10 ^ 6)
            = 2 * ((n : ℚ) * ((2 ^ k : Nat) : ℚ)) + ((2 ^ k : Nat) : ℚ) := by linarith
        exact_mod_cast this

theorem pad6_digits (n : Nat) : ∀ c ∈ pad6 n, c.isDigit = true := by
  have h10 : ∀ m : Nat, m % 10 < 10 := fun m => Nat.mod_lt _ (by decide)
  intro c hc
  simp only [pad6, List.mem_cons, List.mem_singleton, List.not_mem_nil, or_false] at hc
  rcases hc with rfl | rfl | rfl | rfl | rfl | rfl <;> exact digitChar_isDigit _ (h10 _)

theorem pad6_value (n : Nat) :
    (pad6 n).foldl (fun x c => x * 10 + (c.toNat - 48)) 0 = n % 10 ^ 6 := by
  have h10 : ∀ m : Nat, m % 10 < 10 := fun m => Nat.mod_lt _ (by decide)
  simp only [pad6, List.foldl_cons, List.foldl_nil, digitChar_toNat _ (h10 _)]
  omega

theorem FormatFloat_fin (neg : Bool) (mant : Nat) (exp : Int) :
    ∃ (n : Nat) (ip fp : List Char),
      FormatFloat (.fin neg mant exp)
        = String.mk ((if neg then ['-'] else []) ++ ip ++ '.' :: fp) ∧
      ip ≠ [] ∧ (∀ c ∈ ip, c.isDigit = true) ∧ (ip.head? = some '0' → ip = ['0']) ∧
      parseDigits ip = some (n / 10 ^ 6) ∧
      fp.length = 6 ∧ (∀ c ∈ fp, c.isDigit = true) ∧ parseDigits fp = some (n % 10 ^ 6) ∧
      NearestScaled6 mant exp n := by
  refine ⟨scaled6 mant exp,
    formatBits (scaled6 mant exp / 10 ^ 6 + 1) (scaled6 mant exp / 10 ^ 6) [],
    pad6 (scaled6 mant exp), rfl, formatBits_ne_nil _ _ _,
    formatBits_digits _ _ _ (by simp), ?_, parseDigits_formatBits _, rfl, pad6_digits _, ?_,
    scaled6_nearest mant exp⟩
  · intro h0
    rcases Nat.eq_zero_or_pos (scaled6 mant exp / 10 ^ 6) with hn | hn
    · rw [hn]
      rfl
    · exact absurd h0 (formatBits_head _ _ _ (Nat.lt_succ_self _) hn)
  · rw [parseDigits_of_digits _ (by simp [pad6]) (pad6_digits _), pad6_value]

/-- C16 (counterexample): a `float64` NaN is stored as "NaN" and a positive
infinity as "+Inf"; neither string has a decimal point, let alone six digits
after one. -/
theorem float_nan_inf_not_fixed_point :
    ((newRequest "3.3.0" "abc" "GET" "/x").addParamAny "x"
      (.float64 0x7FF8000000000000)).params.lookup "x" = some "NaN" ∧
    '.' ∉ "NaN".data ∧
    ((newRequest "3.3.0" "abc" "GET" "/x").addParamAny "x"
      (.float64 0x7FF0000000000000)).params.lookup "x" = some "+Inf" ∧
    '.' ∉ "+Inf".data := by
  decide

/-- C16 (amended): for a finite float of either width, `± mant * 2 ^ exp`,
`addParamAny` stores under the key a minus sign when the sign bit is set, then
a canonical string of digits, a point and exactly six digits, with no other
character; the digits before and after the point are those of `n / 10 ^ 6` and
`n % 10 ^ 6`, where `n` is `mant * 2 ^ exp * 10 ^ 6` rounded to the nearest
integer, ties to even.  For a NaN it stores "NaN", for the infinities "+Inf"
and "-Inf". -/
theorem addParamAny_float (r : request) (key : String) (value : Value) (x : FloatVal)
    (hx : value.floatValue = some x) :
    (∀ neg mant exp, x = .fin neg mant exp →
      ∃ (n : Nat) (ip fp : List Char),
        (r.addParamAny key value).params.lookup key
          = some (String.mk ((if neg then ['-'] else []) ++ ip ++ '.' :: fp)) ∧
        ip ≠ [] ∧ (∀ c ∈ ip, c.isDigit = true) ∧ (ip.head? = some '0' → ip = ['0']) ∧
        parseDigits ip = some (n / 10 ^ 6) ∧
        fp.length = 6 ∧ (∀ c ∈ fp, c.isDigit = true) ∧ parseDigits fp = some (n % 10 ^ 6) ∧
        NearestScaled6 mant exp n) ∧
    (x = .nan → (r.addParamAny key value).params.lookup key = some "NaN") ∧
    (x = .inf false → (r.addParamAny key value).params.lookup key = some "+Inf") ∧
    (x = .inf true → (r.addParamAny key value).params.lookup key = some "-Inf") := by
  have hp : paramString value = some (FormatFloat x) := by
    cases value <;> simp only [Value.floatValue, Option.some.injEq] at hx <;>
      first
      | exact Option.noConfusion hx
      | (subst hx
         rfl)
  have hl : (r.addParamAny key value).params.lookup key = some (FormatFloat x) := by
    rw [addParamAny_of_some _ _ _ _ hp]
    exact AList.lookup_insert _
  rw [hl]
  refine ⟨?_, ?_, ?_, ?_⟩
  · rintro neg mant exp rfl
    obtain ⟨n, ip, fp, h1, h2⟩ := FormatFloat_fin neg mant exp
    exact ⟨n, ip, fp, congrArg some h1, h2⟩
  · rintro rfl
    rfl
  · rintro rfl
    rfl
  · rintro rfl
    rfl

/-- Witness of `addParamAny_float` at the `float64` value 1/128, a tie at
the sixth decimal place. -/
theorem addParamAny_float_witness :
    (Value.float64 0x3F80000000000000).floatValue
      = some (.fin false 4503599627370496 (-59)) ∧
    ∃ (n : Nat) (ip fp : List Char),
      ((newRequest "3.3.0" "abc" "GET" "/x").addParamAny "x"
        (.float64 0x3F80000000000000)).params.lookup "x"
        = some (String.mk (ip ++ '.' :: fp)) ∧
      fp.length = 6 ∧ NearestScaled6 4503599627370496 (-59) n := by
  obtain ⟨n, ip, fp, h1, _, _, _, _, h6, _, _, h9⟩ :=
    (addParamAny_float (newRequest "3.3.0" "abc" "GET" "/x") "x"
      (.float64 0x3F80000000000000) (.fin false 4503599627370496 (-59)) (by decide)).1
      false 4503599627370496 (-59) rfl
  exact ⟨by decide, n, ip, fp, h1, h6, h9⟩

/-! ## Size of the merged mapping -/

theorem copyInto_empty_perm (headers : StrMap) :
    (copyInto headers ∅).entries.Perm headers.entries := by
  apply List.lookup_ext (copyInto headers ∅).nodupKeys headers.nodupKeys
  intro x y
  have := lookup_copyInto_empty x headers
  unfold AList.lookup at this
  rw [this]

theorem mapLen_insertPairs :
    ∀ (l : List String) (m : StrMap),
      mapLen m ≤ mapLen (insertPairs l m) ∧ mapLen (insertPairs l m) ≤ mapLen m + l.length / 2
  | [], m => by simp [insertPairs]
  | [_], m => by simp [insertPairs]
  | a :: b :: rest, m => by
    simp only [insertPairs, List.length_cons]
    have ih := mapLen_insertPairs rest (m.insert a b)
    have hb := mapLen_insert_bounds m a b
    omega

theorem trimAdded_length_le (added : List String) :
    (trimAdded added).length ≤ added.length := by
  unfold trimAdded
  split
  · rw [List.length_take]
    omega
  · exact Nat.le_refl _

/-- C17: the number of entries of `mergeHeader(h, added)` is at least the
number of entries of `h` and at most `len(h) + len(added)/2`, taken on the
trimmed list (the capacity requested for the new mapping) or on the list as
given. -/
theorem mergeHeader_size_bounds (headers : StrMap) (added : List String) :
    ∃ m, mergeHeader headers added = .ok m ∧ mapLen headers ≤ mapLen m ∧
      mapLen m ≤ mapLen headers + (trimAdded added).length / 2 ∧
      mapLen m ≤ mapLen headers + added.length / 2 := by
  refine ⟨_, mergeHeader_eq headers added, ?_, ?_, ?_⟩
  · have h1 := (mapLen_insertPairs (trimAdded added) (copyInto headers ∅)).1
    have h2 : mapLen (copyInto headers ∅) = mapLen headers :=
      (copyInto_empty_perm headers).length_eq
    omega
  · have h1 := (mapLen_insertPairs (trimAdded added) (copyInto headers ∅)).2
    have h2 : mapLen (copyInto headers ∅) = mapLen headers :=
      (copyInto_empty_perm headers).length_eq
    omega
  · have h1 := (mapLen_insertPairs (trimAdded added) (copyInto headers ∅)).2
    have h2 : mapLen (copyInto headers ∅) = mapLen headers :=
      (copyInto_empty_perm headers).length_eq
    have h3 := trimAdded_length_le added
    have h4 : (trimAdded added).length / 2 ≤ added.length / 2 := Nat.div_le_div_right h3
    omega

end Master
